import Mathlib

/-!
Verification of the Ispell dictionary compiler / normalizer (spell.c) and the
shared dictionary cache (ts_shared.c) of this source tree.

Shallow embedding conventions:
  * C byte strings are modelled as lists of byte values (Word := List Nat);
    the terminating NUL of a C string corresponds to the end of the list.
    Characters are treated as single bytes (single-byte encoding), so
    pg_mblen = 1 and COPYCHAR copies one byte.
  * ereport(ERROR, ...) is modelled by the Except monad with the error kind.
  * Recursions whose termination the C code obtains from runtime invariants
    are given explicit fuel; exhausted fuel is a distinguished error value,
    and callers pass enough fuel for every terminating C execution.
  * In this source tree the regis / regex execution paths of CheckAffix are
    commented out, so a non-simple affix condition never matches; the
    embedding accordingly returns no match for non-simple conditions.
-/

set_option maxHeartbeats 4000000
set_option maxRecDepth 8000

deriving instance DecidableEq for Except

namespace Spell

/-- Words and affix-flag strings are byte strings. -/
abbrev Word := List Nat

/-- Errors raised by the C code via ereport(ERROR)/elog(ERROR), plus the
fuel-exhaustion marker used by the embedding (unreachable from the entry
points with the fuel they pass). -/
inductive Err where
  | config : Err
  | internal : Err
  | fuel : Err
deriving DecidableEq, Repr

/-- Flag-encoding modes of a Hunspell dictionary (enum FlagMode). -/
inductive FlagMode where
  | fmChar : FlagMode
  | fmLong : FlagMode
  | fmNum : FlagMode
deriving DecidableEq, Repr

def MAX_NORM : Nat := 1024
def MAXNORMLEN : Nat := 256

def FF_COMPOUNDONLY : Nat := 0x01
def FF_COMPOUNDBEGIN : Nat := 0x02
def FF_COMPOUNDMIDDLE : Nat := 0x04
def FF_COMPOUNDLAST : Nat := 0x08
def FF_COMPOUNDFLAG : Nat := FF_COMPOUNDBEGIN ||| FF_COMPOUNDMIDDLE ||| FF_COMPOUNDLAST
def FF_COMPOUNDFLAGMASK : Nat := 0x0f
def FF_COMPOUNDPERMITFLAG : Nat := 0x10
def FF_COMPOUNDFORBIDFLAG : Nat := 0x20
def FF_CROSSPRODUCT : Nat := 0x40

def FLAGNUM_MAXSIZE : Nat := 1 <<< 16

def AF_FLAG_MAXSIZE : Nat := 5
def AF_REPL_MAXSIZE : Nat := 255
def AF_FIND_MAXSIZE : Nat := 255

/-- Affix type; prefixes sort before suffixes (FF_PREFIX = 0 < FF_SUFFIX = 1). -/
inductive AffType where
  | pfx : AffType
  | sfx : AffType
deriving DecidableEq, Repr

/-- t_isspace restricted to ASCII whitespace. -/
def t_isspace (c : Nat) : Bool :=
  c = 32 || c = 9 || c = 10 || c = 13 || c = 11 || c = 12

def t_isdigit (c : Nat) : Bool := 48 ≤ c && c ≤ 57

def t_isalpha (c : Nat) : Bool := (65 ≤ c && c ≤ 90) || (97 ≤ c && c ≤ 122)

def t_isprint (c : Nat) : Bool := 32 ≤ c && c ≤ 126

def lowerChar (c : Nat) : Nat := if 65 ≤ c && c ≤ 90 then c + 32 else c

/-- lowerstr of ts_locale.c, restricted to ASCII. -/
def lowerstr (w : Word) : Word := w.map lowerChar

/-- Decimal digits of a natural number, as byte values (sprintf of a
nonnegative int).  Recursion on fuel, written with Nat.rec so that the
kernel evaluates it without building course-of-values tuples; the fuel
passed by natDigits always suffices. -/
def natDigitsGo (fuel : Nat) : Nat → Word :=
  Nat.rec (motive := fun _ => Nat → Word)
    (fun _ => [])
    (fun _ ih n => if n < 10 then [48 + n] else ih (n / 10) ++ [48 + n % 10])
    fuel

def natDigits (n : Nat) : Word := natDigitsGo (n + 1) n

/-- Digit-consuming part of strtol: consume leading decimal digits,
accumulating the value. -/
def strtolDigits : Word → Nat → (Nat × Word)
  | [], acc => (acc, [])
  | c :: rest, acc =>
      if t_isdigit c then strtolDigits rest (acc * 10 + (c - 48)) else (acc, c :: rest)

/-- strtol with base 10: skip whitespace, optional sign, then digits.
Returns none when no digits could be consumed (endptr == nptr). -/
def strtol (s : Word) : Option (Int × Word) :=
  let s1 := s.dropWhile t_isspace
  match s1 with
  | 43 :: rest =>
      match rest with
      | c :: _ =>
          if t_isdigit c then
            let p := strtolDigits rest 0
            some ((p.1 : Int), p.2)
          else none
      | [] => none
  | 45 :: rest =>
      match rest with
      | c :: _ =>
          if t_isdigit c then
            let p := strtolDigits rest 0
            some (-(p.1 : Int), p.2)
          else none
      | [] => none
  | c :: _ =>
      if t_isdigit c then
        let p := strtolDigits s1 0
        some ((p.1 : Int), p.2)
      else none
  | [] => none

/-- Scan after the number in the FM_NUM branch of getNextFlagFromString:
digits must be separated by a single comma, optionally surrounded by
whitespace; returns what remains of the flag set. -/
def numFlagScan : Word → Bool → Except Err Word
  | [], _ => .ok []
  | c :: rest, metComma =>
      if t_isdigit c then
        if !metComma then .error .config else .ok (c :: rest)
      else if c = 44 then
        if metComma then .error .config else numFlagScan rest true
      else if !(t_isspace c) then .error .config
      else numFlagScan rest metComma

/-- getNextFlagFromString: extract one affix flag from a flag-set string,
returning the flag and the remainder of the set. -/
def getNextFlagFromString (fm : FlagMode) (sflagset : Word) : Except Err (Word × Word) :=
  match fm, sflagset with
  | _, [] => .ok ([], [])
  | .fmChar, c :: rest => .ok ([c], rest)
  | .fmLong, [_] => .error .config
  | .fmLong, c1 :: c2 :: rest => .ok ([c1, c2], rest)
  | .fmNum, s =>
      match strtol s with
      | none => .error .config
      | some (n, next) =>
          if n < 0 || n > (FLAGNUM_MAXSIZE : Int) then .error .config
          else
            match numFlagScan next false with
            | .error e => .error e
            | .ok rest => .ok (natDigits n.toNat, rest)

/-- IsAffixFlagInUse: does the affix-set string contain the given flag?
The empty flag acts as a wildcard. The loop consumes at least one byte of
the set per iteration; the fuel below is therefore sufficient. -/
def isAffixFlagInUseGo (fm : FlagMode) : Nat → Word → Word → Except Err Bool
  | 0, _, _ => .error .fuel
  | _ + 1, [], _ => .ok false
  | fuelLeft + 1, flagcur, af =>
      match getNextFlagFromString fm flagcur with
      | .error e => .error e
      | .ok (flag, rest) =>
          if flag = af then .ok true
          else isAffixFlagInUseGo fm fuelLeft rest af

def isAffixFlagInUse (fm : FlagMode) (sflagset af : Word) : Except Err Bool :=
  if af = [] then .ok true
  else isAffixFlagInUseGo fm (sflagset.length + 1) sflagset af

/-- Key of a CompoundAffixFlag entry: a string (FM_CHAR / FM_LONG) or a
number (FM_NUM). -/
inductive CAKey where
  | str : Word → CAKey
  | num : Int → CAKey
deriving DecidableEq, Repr

/-- CompoundAffixFlag: associates an affix flag with a set of FF_ compound
option bits. -/
structure CAFlag where
  key : CAKey
  value : Nat
deriving DecidableEq, Repr

/-- setCompoundAffixFlagValue: parse (and in FM_NUM mode validate) a
compound-option affix flag. -/
def setCompoundAffixFlagValue (fm : FlagMode) (s : Word) (val : Nat) : Except Err CAFlag :=
  match fm with
  | .fmNum =>
      match strtol s with
      | none => .error .config
      | some (i, _) =>
          if i < 0 || i > (FLAGNUM_MAXSIZE : Int) then .error .config
          else .ok ⟨.num i, val⟩
  | _ => .ok ⟨.str s, val⟩

/-- strcmp on byte strings. -/
def wordCmp : Word → Word → Ordering
  | [], [] => .eq
  | [], _ :: _ => .lt
  | _ :: _, [] => .gt
  | a :: as_, b :: bs =>
      if a < b then .lt else if b < a then .gt else wordCmp as_ bs

/-- Comparison used by cmpcmdflag (the CompoundAffixFlags table is sorted
and searched with it). -/
def caKeyCmp : CAKey → CAKey → Ordering
  | .num i, .num j => if i = j then .eq else if i > j then .gt else .lt
  | .str a, .str b => wordCmp a b
  | .num _, .str _ => .lt
  | .str _, .num _ => .gt

/-- One affix rule (struct aff_struct).  The condition mask is kept only
through its issimple classification: in this source tree the regis and
regex execution calls of CheckAffix are commented out, so an affix with a
non-simple condition never matches, making the two non-simple classes
observationally equal. -/
structure Affix where
  type : AffType
  flag : Word
  flagflags : Nat
  issimple : Bool
  find : Word
  repl : Word
deriving DecidableEq, Repr

/-- Build-time dictionary state (the parts of IspellDictBuild and of the
IspellDictData header that the embedded operations read and write). -/
structure BuildSt where
  flagMode : FlagMode
  usecompound : Bool
  useFlagAliases : Bool
  caFlags : List CAFlag
  affixData : List Word
  affixes : List Affix
deriving DecidableEq, Repr

/-- AffixDataGet: the affix-set string with the given index.  An index
outside the table (which in C would read out of bounds) yields the empty
string. -/
def AffixDataGet (st : BuildSt) (i : Nat) : Word := st.affixData.getD i []

def caDefault : CAFlag := ⟨.num 0, 0⟩

/-- bsearch over the CompoundAffixFlags table with cmpcmdflag. -/
def caBsearchGo (table : List CAFlag) (key : CAKey) : Nat → Nat → Nat → Option CAFlag
  | 0, _, _ => none
  | fuelLeft + 1, lo, hi =>
      if lo < hi then
        let mid := lo + (hi - lo) / 2
        let e := table.getD mid caDefault
        match caKeyCmp key e.key with
        | .eq => some e
        | .gt => caBsearchGo table key fuelLeft (mid + 1) hi
        | .lt => caBsearchGo table key fuelLeft lo mid
      else none

def caBsearch (table : List CAFlag) (key : CAKey) : Option CAFlag :=
  caBsearchGo table key (table.length + 1) 0 table.length

/-- getCompoundAffixFlagValue: OR together the compound option bits of
every flag of the set s that appears in the CompoundAffixFlags table. -/
def getCompoundAffixFlagValueGo (st : BuildSt) : Nat → Word → Nat → Except Err Nat
  | 0, _, _ => .error .fuel
  | _ + 1, [], flag => .ok flag
  | fuelLeft + 1, flagcur, flag =>
      match getNextFlagFromString st.flagMode flagcur with
      | .error e => .error e
      | .ok (sflag, rest) =>
          match setCompoundAffixFlagValue st.flagMode sflag 0 with
          | .error e => .error e
          | .ok key =>
              let flagN :=
                match caBsearch st.caFlags key.key with
                | some f => flag ||| f.value
                | none => flag
              getCompoundAffixFlagValueGo st fuelLeft rest flagN

def getCompoundAffixFlagValue (st : BuildSt) (s : Word) : Except Err Nat :=
  if st.caFlags.length = 0 then .ok 0
  else getCompoundAffixFlagValueGo st (s.length + 1) s 0

/-- makeCompoundFlags: compound bits of the affix set with the given index. -/
def makeCompoundFlags (st : BuildSt) (affix : Nat) : Except Err Nat :=
  match getCompoundAffixFlagValue st (AffixDataGet st affix) with
  | .error e => .error e
  | .ok v => .ok (v &&& FF_COMPOUNDFLAGMASK)

/-- MergeAffix: merge two affix sets.  If one of them is empty the other
index is returned unchanged; otherwise the concatenation (comma-joined in
FM_NUM mode) is appended to AffixData as a new entry. -/
def MergeAffix (st : BuildSt) (a1 a2 : Nat) : BuildSt × Nat :=
  if AffixDataGet st a1 = [] then (st, a2)
  else if AffixDataGet st a2 = [] then (st, a1)
  else
    let s :=
      if st.flagMode = .fmNum then AffixDataGet st a1 ++ [44] ++ AffixDataGet st a2
      else AffixDataGet st a1 ++ AffixDataGet st a2
    ({ st with affixData := st.affixData ++ [s] }, st.affixData.length)

/-- A dictionary entry as imported (word plus raw flag string). -/
structure SpellRaw where
  word : Word
  flag : Word
deriving DecidableEq, Repr

/-- A dictionary entry after NISortDictionary assigned its affix-set index. -/
structure SpellD where
  word : Word
  affix : Nat
deriving DecidableEq, Repr

mutual

/-- Word-trie node (SPNode). -/
inductive SPNode where
  | mk : List SPEntry → SPNode

/-- Word-trie node entry (SPNodeData): key byte, isword bit, compound
bitmask, affix-set index, child node (none models ISPELL_INVALID_OFFSET). -/
inductive SPEntry where
  | mk : Nat → Bool → Nat → Nat → Option SPNode → SPEntry

end

def SPNode.data : SPNode → List SPEntry
  | .mk d => d

def SPEntry.val : SPEntry → Nat
  | .mk v _ _ _ _ => v

def SPEntry.isword : SPEntry → Bool
  | .mk _ b _ _ _ => b

def SPEntry.compoundflag : SPEntry → Nat
  | .mk _ _ cf _ _ => cf

def SPEntry.affix : SPEntry → Nat
  | .mk _ _ _ a _ => a

def SPEntry.child : SPEntry → Option SPNode
  | .mk _ _ _ _ c => c

def spDefault : SPEntry := .mk 0 false 0 0 none

/-- In-progress node-entry state for the word-end processing of mkSPNode
(the isword / affix / compoundflag fields; freshly allocated node data is
zeroed). -/
structure LeafAcc where
  isword : Bool
  affix : Nat
  compoundflag : Nat
deriving DecidableEq, Repr

def leafAcc0 : LeafAcc := ⟨false, 0, 0⟩

/-- The body executed by mkSPNode for an entry whose word ends at the
current level: merge homonym affix sets, recompute the compound bitmask,
and clear FF_COMPOUNDONLY when only one of the merged variants had it. -/
def spLeafUpdate (st : BuildSt) (d : LeafAcc) (incAffix : Nat) : Except Err (BuildSt × LeafAcc) :=
  let step : Except Err (BuildSt × Nat × Bool) :=
    if d.isword ∧ d.affix ≠ incAffix then
      match makeCompoundFlags st incAffix with
      | .error e => .error e
      | .ok incFlags =>
          let clear := FF_COMPOUNDONLY &&& d.compoundflag &&& incFlags == 0
          let p := MergeAffix st d.affix incAffix
          .ok (p.1, p.2, clear)
    else .ok (st, incAffix, false)
  match step with
  | .error e => .error e
  | .ok (st1, merged, clear) =>
      match makeCompoundFlags st1 merged with
      | .error e => .error e
      | .ok cf =>
          let cf1 :=
            if cf &&& FF_COMPOUNDONLY ≠ 0 ∧ cf &&& FF_COMPOUNDFLAG = 0 then
              cf ||| FF_COMPOUNDFLAG
            else cf
          let cf2 :=
            if clear then cf1 &&& (FF_COMPOUNDFLAGMASK ^^^ FF_COMPOUNDONLY) else cf1
          .ok (st1, ⟨true, merged, cf2⟩)

/-- Word-end fold of mkSPNode over one group: process, in order, every
entry whose word ends exactly at this level. -/
def mkSPLeafFold (lvl : Nat) : BuildSt → LeafAcc → List SpellD → Except Err (BuildSt × LeafAcc)
  | st, acc, [] => .ok (st, acc)
  | st, acc, e :: rest =>
      if e.word.length = lvl + 1 then
        match spLeafUpdate st acc e.affix with
        | .error err => .error err
        | .ok (st1, acc1) => mkSPLeafFold lvl st1 acc1 rest
      else mkSPLeafFold lvl st acc rest

/-- Split a run of entries sharing the byte c at position lvl from the
front of the list (mkSPNode groups consecutive entries by that byte). -/
def spanChar (lvl c : Nat) : List SpellD → (List SpellD × List SpellD)
  | [] => ([], [])
  | e :: rest =>
      if e.word.getD lvl 0 = c then
        let p := spanChar lvl c rest
        (e :: p.1, p.2)
      else ([], e :: rest)

def groupByCharGo (lvl : Nat) : Nat → List SpellD → List (List SpellD)
  | 0, _ => []
  | _ + 1, [] => []
  | fuelLeft + 1, e :: rest =>
      let p := spanChar lvl (e.word.getD lvl 0) rest
      (e :: p.1) :: groupByCharGo lvl fuelLeft p.2

def groupByChar (lvl : Nat) (l : List SpellD) : List (List SpellD) :=
  groupByCharGo lvl (l.length + 1) l

/-- The two mutually recursive loops of mkSPNode, as a fuel-indexed pair
built with Nat.rec (kernel-friendly: no course-of-values tuples).  The
first component builds the node for the given entries at the given level
(entries whose word is not longer than the level are skipped; when none
remain there is no node, ISPELL_INVALID_OFFSET).  The second processes
the per-byte groups of one level: for each group run the word-end fold,
then build the child node one level deeper. -/
def spRecPair (fuel : Nat) :
    (BuildSt → List SpellD → Nat → Except Err (BuildSt × Option SPNode)) ×
      (BuildSt → List (List SpellD) → Nat → Except Err (BuildSt × List SPEntry)) :=
  Nat.rec (motive := fun _ =>
      (BuildSt → List SpellD → Nat → Except Err (BuildSt × Option SPNode)) ×
        (BuildSt → List (List SpellD) → Nat → Except Err (BuildSt × List SPEntry)))
    ⟨fun _ _ _ => .error .fuel, fun _ _ _ => .error .fuel⟩
    (fun _ ih =>
      ⟨fun st spells level =>
        let rel := spells.filter (fun e => level < e.word.length)
        if rel.isEmpty then .ok (st, none)
        else
          match ih.2 st (groupByChar level rel) level with
          | .error e => .error e
          | .ok (st1, entries) => .ok (st1, some (.mk entries)),
       fun st gs level =>
        match gs with
        | [] => .ok (st, [])
        | g :: gsRest =>
            match mkSPLeafFold level st leafAcc0 g with
            | .error e => .error e
            | .ok (st1, acc) =>
                match ih.1 st1 g (level + 1) with
                | .error e => .error e
                | .ok (st2, child) =>
                    match ih.2 st2 gsRest level with
                    | .error e => .error e
                    | .ok (st3, entries) =>
                        let c := (g.headD ⟨[], 0⟩).word.getD level 0
                        .ok (st3, SPEntry.mk c acc.isword acc.compoundflag acc.affix child :: entries)⟩)
    fuel

def mkSPNodeGo (fuel : Nat) (st : BuildSt) (spells : List SpellD) (level : Nat) :
    Except Err (BuildSt × Option SPNode) :=
  (spRecPair fuel).1 st spells level

def mkSPGroups (fuel : Nat) (st : BuildSt) (gs : List (List SpellD)) (level : Nat) :
    Except Err (BuildSt × List SPEntry) :=
  (spRecPair fuel).2 st gs level

/-- Byte-lexicographic order on words (cmpspell, via strcmp). -/
def wordLe (a b : Word) : Prop := wordCmp a b ≠ .gt

instance : DecidableRel wordLe := fun a b => by
  unfold wordLe; infer_instance

def spellLe (a b : SpellRaw) : Prop := wordLe a.word b.word

instance : DecidableRel spellLe := fun a b => by
  unfold spellLe; infer_instance

def spellDLe (a b : SpellD) : Prop := wordLe a.word b.word

instance : DecidableRel spellDLe := fun a b => by
  unfold spellDLe; infer_instance

/-- Order used by cmpspellaffix (group words by their flag string). -/
def spellFlagLe (a b : SpellRaw) : Prop := wordLe a.flag b.flag

instance : DecidableRel spellFlagLe := fun a b => by
  unfold spellFlagLe; infer_instance

/-- The non-alias AffixData construction of NISortDictionary: walk the
flag-sorted entry list, append each run of a new flag string to AffixData,
and give every entry the index of its flag string.  The cur argument is
none exactly at the first entry (curaffix == -1 in C). -/
def buildAffixDataGo : List SpellRaw → List Word → Option Nat → (List Word × List SpellD)
  | [], table, _ => (table, [])
  | e :: rest, table, cur =>
      let isNew :=
        match cur with
        | none => true
        | some c => e.flag ≠ table.getD c []
      let curN := if isNew then table.length else cur.getD 0
      let tableN := if isNew then table ++ [e.flag] else table
      let p := buildAffixDataGo rest tableN (some curN)
      (p.1, ⟨e.word, curN⟩ :: p.2)

/-- Fuel passed to mkSPNodeGo by NISortDictionary; an upper bound on the
depth of the mutual recursion (levels are bounded by the longest word and
the group lists by the number of entries). -/
def spFuel (spells : List SpellD) : Nat :=
  (spells.foldr (fun e m => max e.word.length m) 0 + 2) * (spells.length + 2)

/-- The alias branch of NISortDictionary: each nonempty flag string is
parsed as a decimal alias index (no range check in this path; the value
is stored into the 19-bit affix bitfield). -/
def aliasAnnotate : List SpellRaw → Except Err (List SpellD)
  | [] => .ok []
  | e :: rest =>
      let cur : Except Err Int :=
        if e.flag ≠ [] then
          match strtol e.flag with
          | none => .error .config
          | some (v, _) => .ok v
        else .ok 0
      match cur with
      | .error err => .error err
      | .ok v =>
          match aliasAnnotate rest with
          | .error err => .error err
          | .ok rest1 => .ok (⟨e.word, (v % (2 ^ 19 : Int)).toNat % 2 ^ 19⟩ :: rest1)

/-- NISortDictionary: assign affix-set indexes to all entries (via the
alias table or by grouping equal flag strings), sort by word, and build
the word trie. -/
def NISortDictionary (st : BuildSt) (spells : List SpellRaw) : Except Err (BuildSt × List SpellD × Option SPNode) :=
  let annotated : Except Err (BuildSt × List SpellD) :=
    if st.useFlagAliases then
      match aliasAnnotate spells with
      | .error err => .error err
      | .ok l => .ok (st, l)
    else
      let sorted1 := spells.insertionSort spellFlagLe
      let p := buildAffixDataGo sorted1 [] none
      .ok ({ st with affixData := p.1 }, p.2)
  match annotated with
  | .error e => .error e
  | .ok (st1, l) =>
      let sorted2 := l.insertionSort spellDLe
      match mkSPNodeGo (spFuel sorted2) st1 sorted2 0 with
      | .error e => .error e
      | .ok (st2, node) => .ok (st2, sorted2, node)

mutual

/-- Affix-trie node (AffixNode), without the void wrapper. -/
inductive ANode where
  | mk : List ANEntry → ANode

/-- Affix-trie node entry (AffixNodeData): key byte, affix rules whose
replace string ends here, child node. -/
inductive ANEntry where
  | mk : Nat → List Affix → Option ANode → ANEntry

end

def ANode.data : ANode → List ANEntry
  | .mk d => d

def ANEntry.val : ANEntry → Nat
  | .mk v _ _ => v

def ANEntry.affs : ANEntry → List Affix
  | .mk _ a _ => a

def ANEntry.child : ANEntry → Option ANode
  | .mk _ _ c => c

def anDefault : ANEntry := .mk 0 [] none

/-- The void root node produced by mkVoidAffix: affixes with an empty
replace string, plus the real root underneath. -/
structure VoidTrie where
  voidAffs : List Affix
  root : Option ANode

/-- Compound-affix list entry (CMPDAffix); affix is the replace string of
the rule (the C keeps a pointer to it). -/
structure CMPD where
  affix : Word
  len : Nat
  issuffix : Bool
deriving DecidableEq, Repr

/-- The compiled dictionary as consumed by the normalizer (IspellDict). -/
structure IspellDict where
  Dictionary : Option SPNode
  AffixData : List Word
  SuffixT : Option VoidTrie
  PrefixT : Option VoidTrie
  CompoundAffix : List CMPD
  usecompound : Bool
  flagMode : FlagMode

def IspellDict.affixSet (conf : IspellDict) (i : Nat) : Word := conf.AffixData.getD i []

/-- Binary search of FindWord over the entries of one trie node. -/
def spSearchGo (data : List SPEntry) (c : Nat) : Nat → Nat → Nat → Option SPEntry
  | 0, _, _ => none
  | fuelLeft + 1, lo, hi =>
      if lo < hi then
        let mid := lo + (hi - lo) / 2
        let e := data.getD mid spDefault
        if e.val = c then some e
        else if e.val < c then spSearchGo data c fuelLeft (mid + 1) hi
        else spSearchGo data c fuelLeft lo mid
      else none

def spSearch (data : List SPEntry) (c : Nat) : Option SPEntry :=
  spSearchGo data c (data.length + 1) 0 data.length

/-- The loop of FindWord: walk the trie along the word; at the last byte
check isword, the compound bitmask against the requested compound role,
and membership of the affix flag in the entry's affix set. -/
def findWordGo (conf : IspellDict) : Option SPNode → Word → Word → Nat → Except Err Bool
  | none, _, _, _ => .ok false
  | some _, [], _, _ => .ok false
  | some node, c :: rest, affixflag, flag =>
      match spSearch node.data c with
      | none => .ok false
      | some e =>
          match rest with
          | [] =>
              if e.isword then
                if flag = 0 then
                  if e.compoundflag &&& FF_COMPOUNDONLY ≠ 0 then .ok false
                  else
                    match isAffixFlagInUse conf.flagMode (conf.affixSet e.affix) affixflag with
                    | .error err => .error err
                    | .ok b => .ok b
                else if flag &&& e.compoundflag = 0 then .ok false
                else
                  match isAffixFlagInUse conf.flagMode (conf.affixSet e.affix) affixflag with
                  | .error err => .error err
                  | .ok b => .ok b
              else .ok false
          | _ => findWordGo conf e.child rest affixflag flag

def findWord (conf : IspellDict) (word affixflag : Word) (flag : Nat) : Except Err Bool :=
  findWordGo conf conf.Dictionary word affixflag (flag &&& FF_COMPOUNDFLAGMASK)

/-- The trie descent of FindWord without its flag checks: the entry at
which the word's last byte lands, if the search reaches one. -/
def leafEntryGo : Option SPNode → Word → Option SPEntry
  | none, _ => none
  | some _, [] => none
  | some node, c :: rest =>
      match spSearch node.data c with
      | none => none
      | some e =>
          match rest with
          | [] => some e
          | _ => leafEntryGo e.child rest

def leafEntry (conf : IspellDict) (word : Word) : Option SPEntry :=
  leafEntryGo conf.Dictionary word

/-- GETWCHAR: byte of the word at walk position n; prefixes walk forward,
suffixes backward from the end. -/
def getWChar (w : Word) (len n : Nat) (ty : AffType) : Nat :=
  match ty with
  | .pfx => w.getD n 0
  | .sfx => w.getD (len - 1 - n) 0

/-- Binary search over the entries of one affix-trie node. -/
def anSearchGo (data : List ANEntry) (c : Nat) : Nat → Nat → Nat → Option ANEntry
  | 0, _, _ => none
  | fuelLeft + 1, lo, hi =>
      if lo < hi then
        let mid := lo + (hi - lo) / 2
        let e := data.getD mid anDefault
        if e.val = c then some e
        else if e.val < c then anSearchGo data c fuelLeft (mid + 1) hi
        else anSearchGo data c fuelLeft lo mid
      else none

def anSearch (data : List ANEntry) (c : Nat) : Option ANEntry :=
  anSearchGo data c (data.length + 1) 0 data.length

/-- FindAffixes on a non-void node: walk from the given level and return
the first node entry holding affixes, together with the level just past
it.  The level strictly increases before any entry is returned, so the
fuel passed by callers suffices. -/
def findAffixesGo : Nat → Option ANode → Word → Nat → AffType → Option (ANEntry × Nat)
  | 0, _, _, _, _ => none
  | fuelLeft + 1, nodeQ, word, level, ty =>
      match nodeQ with
      | none => none
      | some node =>
          if level < word.length then
            match anSearch node.data (getWChar word word.length level ty) with
            | none => none
            | some e =>
                if e.affs.length ≠ 0 then some (e, level + 1)
                else findAffixesGo fuelLeft e.child word (level + 1) ty
          else none

/-- The affix-lookup loop of NormalizeSubWord collapsed into a path: the
node entries with affixes that FindAffixes yields one after another, the
void-node affixes first (FindAffixes starts at the void wrapper made by
mkVoidAffix and follows data->node into the real root). -/
def affixPathGo : Nat → Option ANode → Word → Nat → AffType → List ANEntry
  | 0, _, _, _, _ => []
  | fuelLeft + 1, nodeQ, word, level, ty =>
      match findAffixesGo (word.length + 1) nodeQ word level ty with
      | none => []
      | some (e, level1) => e :: affixPathGo fuelLeft e.child word level1 ty

def affixPath (vtQ : Option VoidTrie) (word : Word) (ty : AffType) : List ANEntry :=
  match vtQ with
  | none => []
  | some vt =>
      let walk := affixPathGo (word.length + 1) vt.root word 0 ty
      if vt.voidAffs.isEmpty then walk else ANEntry.mk 0 vt.voidAffs vt.root :: walk

/-- CheckAffix: gate the affix against the requested compound role, build
the candidate root (strip repl, re-add find), and check the condition.
In this source tree the regis and regex execution calls are commented
out, so only issimple affixes can produce a candidate. -/
def checkAffix (word : Word) (len : Nat) (aff : Affix) (flagflags : Nat) (baselen : Option Nat) : Option Word :=
  let gate : Bool :=
    if flagflags = 0 then
      !(aff.flagflags &&& FF_COMPOUNDONLY ≠ 0)
    else if flagflags &&& FF_COMPOUNDBEGIN ≠ 0 then
      if aff.flagflags &&& FF_COMPOUNDFORBIDFLAG ≠ 0 then false
      else !(aff.flagflags &&& FF_COMPOUNDBEGIN = 0 ∧ aff.type = .sfx)
    else if flagflags &&& FF_COMPOUNDMIDDLE ≠ 0 then
      !(aff.flagflags &&& FF_COMPOUNDMIDDLE = 0 ∨ aff.flagflags &&& FF_COMPOUNDFORBIDFLAG ≠ 0)
    else if flagflags &&& FF_COMPOUNDLAST ≠ 0 then
      if aff.flagflags &&& FF_COMPOUNDFORBIDFLAG ≠ 0 then false
      else !(aff.flagflags &&& FF_COMPOUNDLAST = 0 ∧ aff.type = .pfx)
    else true
  if !gate then none
  else
    let newwordQ : Option Word :=
      match aff.type with
      | .sfx => some (word.take (len - aff.repl.length) ++ aff.find)
      | .pfx =>
          match baselen with
          | some b =>
              if b + aff.find.length ≤ aff.repl.length then none
              else some (aff.find ++ word.drop aff.repl.length)
          | none => some (aff.find ++ word.drop aff.repl.length)
    match newwordQ with
    | none => none
    | some newword => if aff.issimple then some newword else none

/-- addToResult: append the candidate unless the result cap is reached or
it equals the immediately preceding accepted candidate. -/
def addToResult (forms : List Word) (word : Word) : List Word :=
  if forms.length ≥ MAX_NORM - 1 then forms
  else if forms = [] ∨ forms.getLast? ≠ some word then forms ++ [word]
  else forms

/-- The inner affix loop of NormalizeSubWord over the affixes of one
prefix-trie entry.  sAffQ is the enclosing suffix rule when this runs
inside the suffix loop (it enables the cross-product wildcard). -/
def prefixAffFold (conf : IspellDict) (w : Word) (len flag : Nat) (baselen : Option Nat)
    (sAffQ : Option Affix) : List Affix → List Word → Except Err (List Word)
  | [], forms => .ok forms
  | aff :: rest, forms =>
      match checkAffix w len aff flag baselen with
      | none => prefixAffFold conf w len flag baselen sAffQ rest forms
      | some newword =>
          let ff :=
            match sAffQ with
            | some sa =>
                if aff.flagflags &&& sa.flagflags &&& FF_CROSSPRODUCT ≠ 0 then ([] : Word)
                else aff.flag
            | none => aff.flag
          match findWord conf newword ff flag with
          | .error e => .error e
          | .ok true => prefixAffFold conf w len flag baselen sAffQ rest (addToResult forms newword)
          | .ok false => prefixAffFold conf w len flag baselen sAffQ rest forms

def prefixWalk (conf : IspellDict) (w : Word) (len flag : Nat) (baselen : Option Nat)
    (sAffQ : Option Affix) : List ANEntry → List Word → Except Err (List Word)
  | [], forms => .ok forms
  | e :: rest, forms =>
      match prefixAffFold conf w len flag baselen sAffQ e.affs forms with
      | .error err => .error err
      | .ok forms1 => prefixWalk conf w len flag baselen sAffQ rest forms1

/-- The suffix part of NormalizeSubWord: for every matching suffix rule,
check the stripped word, then re-walk the prefix trie over it. -/
def suffixAffFold (conf : IspellDict) (word : Word) (wrdlen flag : Nat) :
    List Affix → List Word → Except Err (List Word)
  | [], forms => .ok forms
  | aff :: rest, forms =>
      match checkAffix word wrdlen aff flag (some 0) with
      | none => suffixAffFold conf word wrdlen flag rest forms
      | some newword =>
          match findWord conf newword aff.flag flag with
          | .error e => .error e
          | .ok b =>
              match
                prefixWalk conf newword newword.length flag (some (wrdlen - aff.repl.length))
                  (some aff) (affixPath conf.PrefixT newword .pfx)
                  (if b then addToResult forms newword else forms)
              with
              | .error e => .error e
              | .ok forms2 => suffixAffFold conf word wrdlen flag rest forms2

def suffixWalk (conf : IspellDict) (word : Word) (wrdlen flag : Nat) :
    List ANEntry → List Word → Except Err (List Word)
  | [], forms => .ok forms
  | e :: rest, forms =>
      match suffixAffFold conf word wrdlen flag e.affs forms with
      | .error err => .error err
      | .ok forms1 => suffixWalk conf word wrdlen flag rest forms1

/-- NormalizeSubWord.  The empty result list models the NULL return. -/
def normalizeSubWord (conf : IspellDict) (word : Word) (flag : Nat) : Except Err (List Word) :=
  if word.length > MAXNORMLEN then .ok []
  else
    match findWord conf word [] flag with
    | .error e => .error e
    | .ok b =>
        match prefixWalk conf word word.length flag none none
            (affixPath conf.PrefixT word .pfx) (if b then [word] else []) with
        | .error e => .error e
        | .ok f1 =>
            match suffixWalk conf word word.length flag (affixPath conf.SuffixT word .sfx) f1 with
            | .error e => .error e
            | .ok f2 => .ok f2

def affTypeVal : AffType → Nat
  | .pfx => 0
  | .sfx => 1

/-- strbcmp: backward string compare (compare from the last byte towards
the first; on common reversed prefixes the shorter string is smaller). -/
def wordBCmp (a b : Word) : Ordering := wordCmp a.reverse b.reverse

/-- cmpaffix: prefixes sort before suffixes; within a type, by replace
string (backward for suffixes). -/
def affCmp (a b : Affix) : Ordering :=
  if affTypeVal a.type < affTypeVal b.type then .lt
  else if affTypeVal b.type < affTypeVal a.type then .gt
  else if a.type = .pfx then wordCmp a.repl b.repl
  else wordBCmp a.repl b.repl

def affLe (a b : Affix) : Prop := affCmp a b ≠ .gt

instance : DecidableRel affLe := fun a b => by
  unfold affLe; infer_instance

/-- strbncmp: compare at most count bytes from the ends of the strings. -/
def strbncmpGo : List Nat → List Nat → Nat → Ordering
  | _, _, 0 => .eq
  | [], [], _ => .eq
  | [], _ :: _, _ => .lt
  | _ :: _, [], _ => .gt
  | a :: r1, b :: r2, n + 1 =>
      if a < b then .lt else if b < a then .gt else strbncmpGo r1 r2 n

def strbncmp (s1 s2 : Word) (count : Nat) : Ordering :=
  strbncmpGo s1.reverse s2.reverse count

/-- isAffixInUse: does any affix set of AffixData contain the flag? -/
def isAffixInUseList (st : BuildSt) : List Word → Word → Except Err Bool
  | [], _ => .ok false
  | s :: rest, affixflag =>
      match isAffixFlagInUse st.flagMode s affixflag with
      | .error e => .error e
      | .ok true => .ok true
      | .ok false => isAffixInUseList st rest affixflag

/-- The CompoundAffix construction loop of NISortAffixes: keep, among the
affixes eligible for compound use and actually used by the dictionary,
only those whose replace string is not an extension of the previously
kept one (unique minimal strings). -/
def cmpdBuild (st : BuildSt) : List Affix → List CMPD → Except Err (List CMPD)
  | [], acc => .ok acc
  | a :: rest, acc =>
      if a.flagflags &&& FF_COMPOUNDFLAG ≠ 0 ∧ 0 < a.repl.length then
        match isAffixInUseList st st.affixData a.flag with
        | .error e => .error e
        | .ok true =>
            let addIt : Bool :=
              match acc.getLast? with
              | none => true
              | some prev =>
                  prev.issuffix != (a.type == AffType.sfx) ||
                    strbncmp prev.affix a.repl prev.len != Ordering.eq
            cmpdBuild st rest
              (if addIt then acc ++ [(⟨a.repl, a.repl.length, a.type == AffType.sfx⟩ : CMPD)] else acc)
        | .ok false => cmpdBuild st rest acc
      else cmpdBuild st rest acc

def affDefault : Affix := ⟨.pfx, [], 0, false, [], []⟩

/-- Split a run of affixes sharing the walk byte c at the given level of
their replace strings (mkANode groups consecutive entries by that byte). -/
def spanCharA (lvl c : Nat) (ty : AffType) : List Affix → (List Affix × List Affix)
  | [] => ([], [])
  | a :: rest =>
      if getWChar a.repl a.repl.length lvl ty = c then
        let p := spanCharA lvl c ty rest
        (a :: p.1, p.2)
      else ([], a :: rest)

def groupByCharAGo (lvl : Nat) (ty : AffType) : Nat → List Affix → List (List Affix)
  | 0, _ => []
  | _ + 1, [] => []
  | fuelLeft + 1, a :: rest =>
      let p := spanCharA lvl (getWChar a.repl a.repl.length lvl ty) ty rest
      (a :: p.1) :: groupByCharAGo lvl ty fuelLeft p.2

def groupByCharA (lvl : Nat) (ty : AffType) (l : List Affix) : List (List Affix) :=
  groupByCharAGo lvl ty (l.length + 1) l

mutual

/-- mkANode: build the affix-trie node over the replace strings (walked
forward for prefixes and backward for suffixes); affixes whose replace
string ends at a level are attached to that level's entry. -/
def mkANodeGo : Nat → List Affix → Nat → AffType → Option ANode
  | 0, _, _, _ => none
  | fuelLeft + 1, affs, level, ty =>
      let rel := affs.filter (fun a => level < a.repl.length)
      if rel.isEmpty then none
      else some (.mk (mkANGroups fuelLeft (groupByCharA level ty rel) level ty))

def mkANGroups : Nat → List (List Affix) → Nat → AffType → List ANEntry
  | 0, _, _, _ => []
  | _ + 1, [], _, _ => []
  | fuelLeft + 1, g :: gs, level, ty =>
      let c := getWChar (g.headD affDefault).repl (g.headD affDefault).repl.length level ty
      let enders := g.filter (fun a => a.repl.length = level + 1)
      ANEntry.mk c enders (mkANodeGo fuelLeft g (level + 1) ty) :: mkANGroups fuelLeft gs level ty

end

/-- Fuel for mkANodeGo, mirroring spFuel. -/
def anFuel (affs : List Affix) : Nat :=
  (affs.foldr (fun a m => max a.repl.length m) 0 + 2) * (affs.length + 2)

/-- NISortAffixes: sort the affixes, build the compound-affix list and the
void-wrapped prefix and suffix tries.  Returns (SuffixT, PrefixT,
CompoundAffix). -/
def NISortAffixes (st : BuildSt) : Except Err (Option VoidTrie × Option VoidTrie × List CMPD) :=
  if st.affixes.length = 0 then .ok (none, none, [])
  else
    let sorted := st.affixes.insertionSort affLe
    let firstsuffix :=
      match sorted.findIdx? (fun a => a.type = .sfx) with
      | some i => i
      | none => sorted.length
    match cmpdBuild st sorted [] with
    | .error e => .error e
    | .ok cmpd =>
        let pfxList := sorted.take firstsuffix
        let sfxList := sorted.drop firstsuffix
        let sfxVoid : VoidTrie :=
          ⟨sfxList.filter (fun a => a.repl.length = 0), mkANodeGo (anFuel sfxList) sfxList 0 .sfx⟩
        let pfxVoid : VoidTrie :=
          ⟨pfxList.filter (fun a => a.repl.length = 0), mkANodeGo (anFuel pfxList) pfxList 0 .pfx⟩
        .ok (some sfxVoid, some pfxVoid, cmpd)

/-- First index of a substring occurrence (strstr). -/
def strstrIdx : Word → Word → Option Nat
  | hay, needle =>
      if needle.isPrefixOf hay then some 0
      else
        match hay with
        | [] => none
        | _ :: t => (strstrIdx t needle).map (· + 1)

/-- CheckCompoundAffixes: advance through the compound-affix list until an
entry matches the tail of the word; returns the matched boundary length
(0 for a matched compound prefix) and the rest of the list, or none when
the list is exhausted (the C -1 return). -/
def checkCompoundAffixes (word : Word) (len : Nat) (checkInPlace : Bool) :
    List CMPD → Option (Nat × List CMPD)
  | [] => none
  | e :: rest =>
      if checkInPlace then
        if e.len < len ∧ e.affix.isPrefixOf word then
          some (if e.issuffix then e.len else 0, rest)
        else checkCompoundAffixes word len checkInPlace rest
      else
        match strstrIdx word e.affix with
        | some p =>
            if e.len < len then some (if e.issuffix then e.len + p else 0, rest)
            else checkCompoundAffixes word len checkInPlace rest
        | none => checkCompoundAffixes word len checkInPlace rest

/-- The three mutually recursive loops of SplitToVariants, as a
fuel-indexed triple built with Nat.rec (kernel-friendly).  A variant is
its stem list; SplitToVariants returns the chain headed by the variant
under construction, followed by the chains its recursive calls appended.
The second component is the compound-affix scan at one position (each
match proposes a boundary; a segment that normalizes spawns a recursive
split after it); the third is the main position loop. -/
def stvKind (conf : IspellDict) (fuel : Nat) :
    (Option SPNode → List Word → Word → Nat → Nat → Int → Except Err (List (List Word))) ×
      (List CMPD → List Word → Word → Nat → Nat → Nat → Int → Bool → List Bool →
        List (List Word) → Except Err (List Bool × List (List Word))) ×
      (Option SPNode → List Word → Word → Nat → Nat → Nat → Int → List Bool →
        List (List Word) → Except Err (List (List Word))) :=
  Nat.rec (motive := fun _ =>
      (Option SPNode → List Word → Word → Nat → Nat → Int → Except Err (List (List Word))) ×
        (List CMPD → List Word → Word → Nat → Nat → Nat → Int → Bool → List Bool →
          List (List Word) → Except Err (List Bool × List (List Word))) ×
        (Option SPNode → List Word → Word → Nat → Nat → Nat → Int → List Bool →
          List (List Word) → Except Err (List (List Word))))
    ⟨fun _ _ _ _ _ _ => .error .fuel,
     fun _ _ _ _ _ _ _ _ _ _ => .error .fuel,
     fun _ _ _ _ _ _ _ _ _ => .error .fuel⟩
    (fun _ ih =>
      ⟨fun snode orig word wordlen startpos minpos =>
        let node0 := match snode with | some n => some n | none => conf.Dictionary
        let level : Nat := if snode.isSome then minpos.toNat else startpos
        ih.2.2 node0 orig word wordlen startpos level minpos
          (List.replicate wordlen true) [],
       fun caff var word wordlen startpos level minpos nodePresent notprobed chains =>
        match checkCompoundAffixes (word.drop level) (wordlen - level) nodePresent caff with
        | none => .ok (notprobed, chains)
        | some (lenaff0, caffRest) =>
            let lenaff := level - startpos + lenaff0
            if !(notprobed.getD (startpos + lenaff - 1) false) then
              ih.2.1 caffRest var word wordlen startpos level minpos nodePresent notprobed chains
            else if ((level + lenaff - 1 : Nat) : Int) ≤ minpos then
              ih.2.1 caffRest var word wordlen startpos level minpos nodePresent notprobed chains
            else if lenaff ≥ MAXNORMLEN then
              ih.2.1 caffRest var word wordlen startpos level minpos nodePresent notprobed chains
            else
              let buf := (word.drop startpos).take lenaff
              let compoundflag :=
                if level = 0 then FF_COMPOUNDBEGIN
                else if level = wordlen - 1 then FF_COMPOUNDLAST
                else FF_COMPOUNDMIDDLE
              match normalizeSubWord conf buf compoundflag with
              | .error e => .error e
              | .ok subres =>
                  if subres.isEmpty then
                    ih.2.1 caffRest var word wordlen startpos level minpos nodePresent notprobed
                      chains
                  else
                    let notprobed1 := notprobed.set (startpos + lenaff - 1) false
                    match
                      ih.1 none (var ++ subres) word wordlen (startpos + lenaff)
                        ((startpos + lenaff : Nat) : Int)
                    with
                    | .error e => .error e
                    | .ok newChains =>
                        ih.2.1 caffRest var word wordlen startpos level minpos nodePresent
                          notprobed1 (chains ++ newChains),
       fun nodeQ var word wordlen startpos level minpos notprobed chains =>
        if level < wordlen then
          let scanned : Except Err (List Bool × List (List Word)) :=
            if startpos < level then
              ih.2.1 conf.CompoundAffix var word wordlen startpos level minpos nodeQ.isSome
                notprobed chains
            else .ok (notprobed, chains)
          match scanned with
          | .error e => .error e
          | .ok (notprobed1, chains1) =>
              match nodeQ with
              | none => .ok ((var ++ [(word.drop startpos).take (wordlen - startpos)]) :: chains1)
              | some node =>
                  match spSearch node.data (word.getD level 0) with
                  | none =>
                      ih.2.2 none var word wordlen startpos (level + 1) minpos notprobed1 chains1
                  | some e =>
                      let compoundflag :=
                        if startpos = 0 then FF_COMPOUNDBEGIN
                        else if level = wordlen - 1 then FF_COMPOUNDLAST
                        else FF_COMPOUNDMIDDLE
                      if e.isword ∧ e.compoundflag &&& compoundflag ≠ 0 ∧
                          notprobed1.getD level false ∧ minpos < (level : Int) then
                        if wordlen = level + 1 then
                          .ok ((var ++ [(word.drop startpos).take (wordlen - startpos)]) :: chains1)
                        else
                          match ih.1 (some node) var word wordlen startpos ((level : Nat) : Int) with
                          | .error err => .error err
                          | .ok subChains =>
                              let var1 := var ++ [(word.drop startpos).take (level + 1 - startpos)]
                              ih.2.2 conf.Dictionary var1 word wordlen (level + 1) (level + 1)
                                minpos notprobed1 (chains1 ++ subChains)
                      else
                        ih.2.2 e.child var word wordlen startpos (level + 1) minpos notprobed1
                          chains1
        else .ok ((var ++ [(word.drop startpos).take (wordlen - startpos)]) :: chains)⟩)
    fuel

def splitToVariants (conf : IspellDict) (fuel : Nat) (snode : Option SPNode) (orig : List Word)
    (word : Word) (wordlen startpos : Nat) (minpos : Int) : Except Err (List (List Word)) :=
  (stvKind conf fuel).1 snode orig word wordlen startpos minpos

def caffScan (conf : IspellDict) (fuel : Nat) (caff : List CMPD) (var : List Word) (word : Word)
    (wordlen startpos level : Nat) (minpos : Int) (nodePresent : Bool) (notprobed : List Bool)
    (chains : List (List Word)) : Except Err (List Bool × List (List Word)) :=
  (stvKind conf fuel).2.1 caff var word wordlen startpos level minpos nodePresent notprobed chains

def stvLoop (conf : IspellDict) (fuel : Nat) (nodeQ : Option SPNode) (var : List Word)
    (word : Word) (wordlen startpos level : Nat) (minpos : Int) (notprobed : List Bool)
    (chains : List (List Word)) : Except Err (List (List Word)) :=
  (stvKind conf fuel).2.2 nodeQ var word wordlen startpos level minpos notprobed chains

/-- NIAddAffix: validate field lengths and append the affix rule; an affix
marked compound-only or compound-permit gets the generic compound bits. -/
def NIAddAffix (st : BuildSt) (flag : Word) (flagflags : Nat) (mask find repl : Word)
    (ty : AffType) : Except Err BuildSt :=
  if flag.length > AF_FLAG_MAXSIZE then .error .config
  else if find.length > AF_FIND_MAXSIZE then .error .config
  else if repl.length > AF_REPL_MAXSIZE then .error .config
  else
    let issimple := mask = [46] || mask = []
    let ff1 :=
      if (flagflags &&& FF_COMPOUNDONLY ≠ 0 ∨ flagflags &&& FF_COMPOUNDPERMITFLAG ≠ 0) ∧
          flagflags &&& FF_COMPOUNDFLAG = 0 then
        flagflags ||| FF_COMPOUNDFLAG
      else flagflags
    .ok { st with affixes := st.affixes ++ [⟨ty, flag, ff1, issimple, find, repl⟩] }

/-- get_nextfield: skip whitespace and read one field; a comment sign
before the field aborts the line. -/
def getNextfieldGo : Word → Bool → Word → (Bool × Word × Word)
  | [], inField, acc => (inField, acc, [])
  | c :: rest, false, acc =>
      if c = 35 then (false, acc, c :: rest)
      else if !(t_isspace c) then getNextfieldGo rest true (acc ++ [c])
      else getNextfieldGo rest false acc
  | c :: rest, true, acc =>
      if t_isspace c then (true, acc, c :: rest)
      else getNextfieldGo rest true (acc ++ [c])

def get_nextfield (s : Word) : Bool × Word × Word := getNextfieldGo s false []

/-- Fields of one line of a MySpell / Hunspell affix file. -/
structure OOEntry where
  fieldsRead : Nat
  ty : Word
  flag : Word
  find : Word
  repl : Word
  mask : Word
deriving DecidableEq, Repr

/-- parse_ooaffentry: read up to five whitespace-separated fields. -/
def parse_ooaffentry (s : Word) : OOEntry :=
  let (v1, ty, s1) := get_nextfield s
  if !v1 then ⟨0, ty, [], [], [], []⟩
  else
    let (v2, fl, s2) := get_nextfield s1
    if !v2 then ⟨1, ty, fl, [], [], []⟩
    else
      let (v3, fnd, s3) := get_nextfield s2
      if !v3 then ⟨2, ty, fl, fnd, [], []⟩
      else
        let (v4, rp, s4) := get_nextfield s3
        if !v4 then ⟨3, ty, fl, fnd, rp, []⟩
        else
          let (v5, mk, _) := get_nextfield s4
          if !v5 then ⟨4, ty, fl, fnd, rp, mk⟩ else ⟨5, ty, fl, fnd, rp, mk⟩

/-- States of the parse_affentry machine. -/
inductive PState where
  | waitMask | inMask | waitFind | inFind | waitRepl | inRepl
deriving DecidableEq, Repr

/-- parse_affentry: parse a legacy-Ispell affix line
mask > [-find,]repl; none models the skip-this-line false return, an
error the ereport of a syntax error. -/
def parseAffentryGo : Word → PState → Word → Word → Word → Except Err (Option (Word × Word × Word))
  | [], _, mask, find, repl =>
      .ok (if mask ≠ [] ∧ (find ≠ [] ∨ repl ≠ []) then some (mask, find, repl) else none)
  | c :: rest, st, mask, find, repl =>
      let finish : Except Err (Option (Word × Word × Word)) :=
        .ok (if mask ≠ [] ∧ (find ≠ [] ∨ repl ≠ []) then some (mask, find, repl) else none)
      match st with
      | .waitMask =>
          if c = 35 then .ok none
          else if !(t_isspace c) then parseAffentryGo rest .inMask (mask ++ [c]) find repl
          else parseAffentryGo rest .waitMask mask find repl
      | .inMask =>
          if c = 62 then parseAffentryGo rest .waitFind mask find repl
          else if !(t_isspace c) then parseAffentryGo rest .inMask (mask ++ [c]) find repl
          else parseAffentryGo rest .inMask mask find repl
      | .waitFind =>
          if c = 45 then parseAffentryGo rest .inFind mask find repl
          else if t_isalpha c || c = 39 then parseAffentryGo rest .inRepl mask find (repl ++ [c])
          else if !(t_isspace c) then .error .config
          else parseAffentryGo rest .waitFind mask find repl
      | .inFind =>
          if c = 44 then parseAffentryGo rest .waitRepl mask find repl
          else if t_isalpha c then parseAffentryGo rest .inFind mask (find ++ [c]) repl
          else if !(t_isspace c) then .error .config
          else parseAffentryGo rest .inFind mask find repl
      | .waitRepl =>
          if c = 45 then finish
          else if t_isalpha c then parseAffentryGo rest .inRepl mask find (repl ++ [c])
          else if !(t_isspace c) then .error .config
          else parseAffentryGo rest .waitRepl mask find repl
      | .inRepl =>
          if c = 35 then finish
          else if t_isalpha c then parseAffentryGo rest .inRepl mask find (repl ++ [c])
          else if !(t_isspace c) then .error .config
          else parseAffentryGo rest .inRepl mask find repl

def parse_affentry (s : Word) : Except Err (Option (Word × Word × Word)) :=
  parseAffentryGo s .waitMask [] [] []

/-- addCompoundAffixFlagValue: extract the flag token of the line, parse
it, append it to the CompoundAffixFlags table and record compound usage. -/
def addCompoundAffixFlagValue (st : BuildSt) (s : Word) (val : Nat) : Except Err BuildSt :=
  let s1 := s.dropWhile t_isspace
  if s1 = [] then .error .config
  else
    let sbuf := s1.takeWhile (fun c => !(t_isspace c) && c ≠ 10)
    match setCompoundAffixFlagValue st.flagMode sbuf val with
    | .error e => .error e
    | .ok caf => .ok { st with caFlags := st.caFlags ++ [caf], usecompound := true }

/-- getAffixFlagSet: in alias mode a nonempty flag field is the decimal
index of an alias-table entry (out-of-range indexes yield the empty set). -/
def getAffixFlagSet (st : BuildSt) (s : Word) : Except Err Word :=
  if st.useFlagAliases ∧ s ≠ [] then
    match strtol s with
    | none => .error .config
    | some (cur, _) =>
        if 0 < cur ∧ cur ≤ (st.affixData.length : Int) then .ok (AffixDataGet st cur.toNat)
        else .ok []
  else .ok s

def wordOf (s : String) : Word := s.data.map Char.toNat

def caLe (a b : CAFlag) : Prop := caKeyCmp a.key b.key ≠ .gt

instance : DecidableRel caLe := fun a b => by
  unfold caLe; infer_instance

/-- First pass of NIImportOOAffixes: collect compound-option flags and the
FLAG directive. -/
def ooPass1 (st : BuildSt) (line : Word) : Except Err BuildSt :=
  if line = [] || t_isspace (line.headD 0) || line.headD 0 = 35 then .ok st
  else if (wordOf "COMPOUNDFLAG").isPrefixOf line then
    addCompoundAffixFlagValue st (line.drop 12) FF_COMPOUNDFLAG
  else if (wordOf "COMPOUNDBEGIN").isPrefixOf line then
    addCompoundAffixFlagValue st (line.drop 13) FF_COMPOUNDBEGIN
  else if (wordOf "COMPOUNDLAST").isPrefixOf line then
    addCompoundAffixFlagValue st (line.drop 12) FF_COMPOUNDLAST
  else if (wordOf "COMPOUNDEND").isPrefixOf line then
    addCompoundAffixFlagValue st (line.drop 11) FF_COMPOUNDLAST
  else if (wordOf "COMPOUNDMIDDLE").isPrefixOf line then
    addCompoundAffixFlagValue st (line.drop 14) FF_COMPOUNDMIDDLE
  else if (wordOf "ONLYINCOMPOUND").isPrefixOf line then
    addCompoundAffixFlagValue st (line.drop 14) FF_COMPOUNDONLY
  else if (wordOf "COMPOUNDPERMITFLAG").isPrefixOf line then
    addCompoundAffixFlagValue st (line.drop 18) FF_COMPOUNDPERMITFLAG
  else if (wordOf "COMPOUNDFORBIDFLAG").isPrefixOf line then
    addCompoundAffixFlagValue st (line.drop 18) FF_COMPOUNDFORBIDFLAG
  else if (wordOf "FLAG").isPrefixOf line then
    let s := (line.drop 4).dropWhile t_isspace
    if s ≠ [] then
      if (wordOf "long").isPrefixOf s then .ok { st with flagMode := .fmLong }
      else if (wordOf "num").isPrefixOf s then .ok { st with flagMode := .fmNum }
      else if !((wordOf "default").isPrefixOf s) then .error .config
      else .ok st
    else .ok st
  else .ok st

def ooPass1All (st : BuildSt) : List Word → Except Err BuildSt
  | [] => .ok st
  | line :: rest =>
      match ooPass1 st line with
      | .error e => .error e
      | .ok st1 => ooPass1All st1 rest

/-- Per-line state of the second pass of NIImportOOAffixes. -/
structure OOSt where
  st : BuildSt
  isSuffix : Bool
  flagflags : Nat
deriving DecidableEq, Repr

/-- Second pass of NIImportOOAffixes: the alias table and the affix
headers and fields. -/
def ooPass2 (s : OOSt) (line : Word) : Except Err OOSt :=
  if line = [] || t_isspace (line.headD 0) || line.headD 0 = 35 then .ok s
  else
    let e := parse_ooaffentry line
    let ptype := lowerstr e.ty
    if (wordOf "af").isPrefixOf ptype then
      if !s.st.useFlagAliases then
        let naffix : Int := match strtol e.flag with | some (v, _) => v | none => 0
        if naffix = 0 then .error .config
        else .ok { s with st := { s.st with useFlagAliases := true, affixData := [[]] } }
      else .ok { s with st := { s.st with affixData := s.st.affixData ++ [e.flag] } }
    else if e.fieldsRead < 4 ||
        (!((wordOf "sfx").isPrefixOf ptype) && !((wordOf "pfx").isPrefixOf ptype)) then
      .ok s
    else if e.flag.length = 0 ||
        (1 < e.flag.length && s.st.flagMode == .fmChar) ||
        (2 < e.flag.length && s.st.flagMode == .fmLong) then
      .ok s
    else if e.fieldsRead = 4 then
      .ok { s with
            isSuffix := (wordOf "sfx").isPrefixOf ptype,
            flagflags := if e.find.headD 0 = 121 || e.find.headD 0 = 89 then FF_CROSSPRODUCT else 0 }
    else
      let aflgE : Except Err Nat :=
        match (e.repl.findIdx? (fun c => c = 47)) with
        | some i =>
            match getAffixFlagSet s.st (e.repl.drop (i + 1)) with
            | .error err => .error err
            | .ok fs => getCompoundAffixFlagValue s.st fs
        | none => .ok 0
      match aflgE with
      | .error err => .error err
      | .ok aflg =>
          let prepl0 := lowerstr e.repl
          let prepl :=
            match prepl0.findIdx? (fun c => c = 47) with
            | some i => prepl0.take i
            | none => prepl0
          let pfind := if e.find.headD 0 = 48 then [] else lowerstr e.find
          let preplF := if e.repl.headD 0 = 48 then [] else prepl
          let pmask := lowerstr e.mask
          match
            NIAddAffix s.st e.flag (s.flagflags ||| aflg) pmask pfind preplF
              (if s.isSuffix then .sfx else .pfx)
          with
          | .error err => .error err
          | .ok st1 => .ok { s with st := st1 }

def ooPass2All (s : OOSt) : List Word → Except Err OOSt
  | [] => .ok s
  | line :: rest =>
      match ooPass2 s line with
      | .error e => .error e
      | .ok s1 => ooPass2All s1 rest

/-- NIImportOOAffixes: reset the header flags, run the two passes over the
file, sorting the CompoundAffixFlags table in between. -/
def NIImportOOAffixes (st : BuildSt) (lines : List Word) : Except Err BuildSt :=
  let st0 := { st with usecompound := false, useFlagAliases := false, flagMode := FlagMode.fmChar }
  match ooPass1All st0 lines with
  | .error e => .error e
  | .ok st1 =>
      let st2 := { st1 with caFlags := st1.caFlags.insertionSort caLe }
      match ooPass2All ⟨st2, false, 0⟩ lines with
      | .error e => .error e
      | .ok s => .ok s.st

/-- First position of one of two bytes in a string (findchar2); returns
the tail starting there. -/
def findCharPos2 : Word → Nat → Nat → Option Word
  | [], _, _ => none
  | c :: rest, c1, c2 =>
      if c = c1 || c = c2 then some (c :: rest) else findCharPos2 rest c1 c2

/-- Per-line state of NIImportAffixes (the legacy-format reader). -/
structure OldSt where
  st : BuildSt
  suffixes : Bool
  prefixes : Bool
  flag : Word
  flagflags : Nat
  oldformat : Bool
deriving DecidableEq, Repr

/-- Outcome of one NIImportAffixes line. -/
inductive OldOut where
  | next : OldSt → OldOut
  | newFmt : OldOut
  | fail : Err → OldOut

/-- How NIImportAffixes classifies one line.  The branch taken depends
only on the line text (never on the reader state), which is what makes
the new-format detection order-sensitive. -/
inductive OldClass where
  | comment
  | cmpdwords : Word → OldClass
  | sfxHeader
  | pfxHeader
  | flagSet : Word → Nat → OldClass
  | newFmt
  | entry : Word → OldClass
deriving DecidableEq, Repr

/-- The line dispatch of NIImportAffixes: recognize legacy directives or
detect new-format commands (goto isnewformat). -/
def oldClassify (line : Word) : OldClass :=
  let pstr := lowerstr line
  if pstr.headD 0 = 35 || pstr.headD 0 = 10 then .comment
  else if (wordOf "compoundwords").isPrefixOf pstr ∧ (findCharPos2 line 108 76).isSome then
    let t0 := (findCharPos2 line 108 76).getD []
    let t1 := (t0.dropWhile (fun c => !(t_isspace c))).dropWhile t_isspace
    .cmpdwords t1
  else if (wordOf "suffixes").isPrefixOf pstr then .sfxHeader
  else if (wordOf "prefixes").isPrefixOf pstr then .pfxHeader
  else if (wordOf "flag").isPrefixOf pstr then
    let t0 := (line.drop 4).dropWhile t_isspace
    let (ff, t1) :=
      if t0.headD 0 = 42 then (FF_CROSSPRODUCT, t0.drop 1)
      else if t0.headD 0 = 126 then (FF_COMPOUNDONLY, t0.drop 1)
      else (0, t0)
    let t2 := if t1.headD 0 = 92 then t1.drop 1 else t1
    match t2 with
    | c :: t3 =>
        if t3 = [] || t3.headD 0 = 35 || t3.headD 0 = 10 || t3.headD 0 = 58 ||
            t_isspace (t3.headD 0) then
          .flagSet [c] ff
        else .newFmt
    | [] => .newFmt
  else if (wordOf "COMPOUNDFLAG").isPrefixOf line || (wordOf "COMPOUNDMIN").isPrefixOf line ||
      (wordOf "PFX").isPrefixOf line || (wordOf "SFX").isPrefixOf line then
    .newFmt
  else .entry pstr

/-- One line of NIImportAffixes: act on the line's classification, or
parse a legacy affix entry. -/
def oldStep (line : Word) (s : OldSt) : OldOut :=
  match oldClassify line with
  | .comment => .next s
  | .cmpdwords t1 =>
      if t1 ≠ [] then
        match addCompoundAffixFlagValue s.st t1 FF_COMPOUNDFLAG with
        | .error e => .fail e
        | .ok st1 => .next { s with st := st1, oldformat := true }
      else .next { s with oldformat := true }
  | .sfxHeader => .next { s with suffixes := true, prefixes := false, oldformat := true }
  | .pfxHeader => .next { s with suffixes := false, prefixes := true, oldformat := true }
  | .flagSet f ff => .next { s with flag := f, flagflags := ff, oldformat := true }
  | .newFmt => .newFmt
  | .entry pstr =>
      if !s.suffixes && !s.prefixes then .next s
      else
        match parse_affentry pstr with
        | .error e => .fail e
        | .ok none => .next s
        | .ok (some (mask, find, repl)) =>
            match
              NIAddAffix s.st s.flag s.flagflags mask find repl
                (if s.suffixes then .sfx else .pfx)
            with
            | .error e => .fail e
            | .ok st1 => .next { s with st := st1 }

def NIImportAffixesGo (allLines : List Word) : List Word → OldSt → Except Err BuildSt
  | [], s => .ok s.st
  | line :: rest, s =>
      match oldStep line s with
      | .fail e => .error e
      | .next s1 => NIImportAffixesGo allLines rest s1
      | .newFmt =>
          if s.oldformat then .error .config
          else NIImportOOAffixes s.st allLines

/-- NIImportAffixes: read the affix file in the legacy format; on the
first new-format command hand the whole file to NIImportOOAffixes, unless
legacy commands were already seen, which is an error. -/
def NIImportAffixes (st : BuildSt) (lines : List Word) : Except Err BuildSt :=
  let st0 := { st with usecompound := false, useFlagAliases := false, flagMode := FlagMode.fmChar }
  NIImportAffixesGo lines lines ⟨st0, false, false, [], 0, false⟩

/-- One produced lexeme (TSLexeme). -/
structure TSLexeme where
  lexeme : Word
  flags : Nat
  nvariant : Nat
deriving DecidableEq, Repr

/-- addNorm: append a lexeme unless the MAX_NORM - 1 cap is reached. -/
def addNorm (lres : List TSLexeme) (word : Word) (flags nvariant : Nat) : List TSLexeme :=
  if lres.length < MAX_NORM - 1 then lres ++ [⟨word, flags, nvariant⟩] else lres

/-- The non-compound result loop of NINormalizeWord: each form becomes its
own variant while fewer than MAX_NORM lexemes are accumulated. -/
def addNormLoop : List Word → List TSLexeme → Nat → (List TSLexeme × Nat)
  | [], lres, nvariant => (lres, nvariant)
  | w :: rest, lres, nvariant =>
      if lres.length < MAX_NORM then addNormLoop rest (addNorm lres w 0 nvariant) (nvariant + 1)
      else (lres, nvariant)

/-- The per-variant output loop of the compound section: for each
normalization of the last stem, emit all leading stems and that
normalization under one variant number. -/
def compoundEmit (stems : List Word) : List Word → List TSLexeme → Nat → (List TSLexeme × Nat)
  | [], lres, nvariant => (lres, nvariant)
  | sub :: rest, lres, nvariant =>
      let lres1 := (stems.take (stems.length - 1)).foldl (fun l w => addNorm l w 0 nvariant) lres
      compoundEmit stems rest (addNorm lres1 sub 0 nvariant) (nvariant + 1)

def compoundLoop (conf : IspellDict) : List (List Word) → List TSLexeme → Nat →
    Except Err (List TSLexeme × Nat)
  | [], lres, nvariant => .ok (lres, nvariant)
  | stems :: rest, lres, nvariant =>
      if 1 < stems.length then
        match normalizeSubWord conf (stems.getLastD []) FF_COMPOUNDLAST with
        | .error e => .error e
        | .ok subres =>
            if subres.isEmpty then compoundLoop conf rest lres nvariant
            else
              let p := compoundEmit stems subres lres nvariant
              compoundLoop conf rest p.1 p.2
      else compoundLoop conf rest lres nvariant

/-- Fuel passed to SplitToVariants by NINormalizeWord; large enough for
every terminating run on the inputs used concretely in this file. -/
def stvFuel (wordlen : Nat) : Nat := (wordlen + 2) * (wordlen + 2)

/-- NINormalizeWord: normalize the word itself, then, if the dictionary
declares compound usage, normalize its compound segmentations.  The empty
list models the NULL return. -/
def NINormalizeWord (conf : IspellDict) (word : Word) : Except Err (List TSLexeme) :=
  match normalizeSubWord conf word 0 with
  | .error e => .error e
  | .ok res =>
      let p := addNormLoop res [] 1
      if conf.usecompound then
        let wordlen := word.length
        match splitToVariants conf (stvFuel wordlen) none [] word wordlen 0 (-1) with
        | .error e => .error e
        | .ok vars =>
            match compoundLoop conf vars p.1 p.2 with
            | .error e => .error e
            | .ok q => .ok q.1
      else .ok p.1

end Spell

namespace TsShared

/-- PG_VERSION_NUM / 100 of the running binary, as an abstract constant. -/
def PG_MAJOR : Nat := 110

/-- Errors of the cache layer (ereport(ERROR) paths). -/
inductive CErr where
  | fileAccess : CErr
  | versionMismatch : CErr
deriving DecidableEq, Repr

/-- Entry of the dshash table (TsearchDictEntry).  The reference count is
a uint32. -/
structure Entry where
  dict_id : Nat
  dict_size : Nat
  refcnt : Nat
deriving DecidableEq, Repr

/-- A dictionary cache file (TsearchSharedHeader followed by the blob). -/
structure FileD where
  pg_major_version : Nat
  dict : List Nat
deriving DecidableEq, Repr

/-- The observable state: the dshash table, the cache files on disk, and
the configured quota GUC (max_shared_dictionaries_size), which the code
of this source tree never reads. -/
structure St where
  table : List (Nat × Entry)
  fs : List (Nat × FileD)
  quota : Int
deriving DecidableEq, Repr

/-- Lock / build events in program order (dshash_find takes the partition
lock shared, dshash_find_or_insert takes it exclusive, and both keep it
until dshash_release_lock when they return an entry). -/
inductive Ev where
  | acqShared : Ev
  | relShared : Ev
  | acqExcl : Ev
  | relExcl : Ev
  | build : Ev
deriving DecidableEq, Repr

/-- Result of ts_dict_shared_location: a mapping of the shared cache file,
or a private backend-memory copy. -/
inductive Res where
  | shared : Nat → Res
  | privateCopy : List Nat → Res
deriving DecidableEq, Repr

def lookupTable (t : List (Nat × Entry)) (id : Nat) : Option Entry :=
  (t.find? (fun p => p.1 = id)).map (·.2)

def removeTable (t : List (Nat × Entry)) (id : Nat) : List (Nat × Entry) :=
  t.filter (fun p => p.1 ≠ id)

def setTable (t : List (Nat × Entry)) (id : Nat) (e : Entry) : List (Nat × Entry) :=
  removeTable t id ++ [(id, e)]

def lookupFs (fs : List (Nat × FileD)) (id : Nat) : Option FileD :=
  (fs.find? (fun p => p.1 = id)).map (·.2)

def setFs (fs : List (Nat × FileD)) (id : Nat) (f : FileD) : List (Nat × FileD) :=
  fs.filter (fun p => p.1 ≠ id) ++ [(id, f)]

/-- get_dict_address: open (or create zero-filled) and map the cache file;
on create stamp the version, otherwise check it. -/
def get_dict_address (fs : List (Nat × FileD)) (id : Nat) (request_size : Nat)
    (create_file : Bool) : Except CErr (List (Nat × FileD)) :=
  match lookupFs fs id with
  | none =>
      if create_file then .ok (setFs fs id ⟨PG_MAJOR, List.replicate request_size 0⟩)
      else .error .fileAccess
  | some f =>
      if create_file then .error .fileAccess
      else if f.pg_major_version ≠ PG_MAJOR then .error .versionMismatch
      else .ok fs

/-- ts_dict_shared_location: look the dictionary up in the shared hash
table, build and publish it when absent.  The blob argument stands for
what allocate_cb produces; the event list records lock acquisition,
release and the build callback in program order. -/
def ts_dict_shared_location (σ : St) (dictid : Nat) (valid : Bool) (blob : List Nat) :
    Except CErr (Res × St × List Ev) :=
  if !valid then
    -- invalid dictid: build in backend memory, no locks taken
    .ok (.privateCopy blob, σ, [.build])
  else
    match lookupTable σ.table dictid with
    | some e =>
        -- dshash_find acquires the partition lock shared and returns the
        -- entry locked; refcnt++ then dshash_release_lock
        match get_dict_address σ.fs dictid e.dict_size false with
        | .error err => .error err
        | .ok fs1 =>
            let e1 := { e with refcnt := (e.refcnt + 1) % 2 ^ 32 }
            .ok (.shared dictid, { σ with table := setTable σ.table dictid e1, fs := fs1 },
              [.acqShared, .relShared])
    | none =>
        -- dshash_find released the shared lock; dshash_find_or_insert
        -- acquires the partition lock exclusive and holds it until
        -- dshash_release_lock at the end
        match lookupFs σ.fs dictid with
        | some f =>
            -- cache file already exists: map it, no build
            match get_dict_address σ.fs dictid f.dict.length false with
            | .error err => .error err
            | .ok fs1 =>
                let e1 : Entry := ⟨dictid, f.dict.length, 1⟩
                .ok (.shared dictid, { σ with table := setTable σ.table dictid e1, fs := fs1 },
                  [.acqShared, .relShared, .acqExcl, .relExcl])
        | none =>
            -- build the dictionary (allocate_cb), create the file, copy
            match get_dict_address σ.fs dictid blob.length true with
            | .error err => .error err
            | .ok fs1 =>
                let fs2 := setFs fs1 dictid ⟨PG_MAJOR, blob⟩
                let e1 : Entry := ⟨dictid, blob.length, 1⟩
                .ok (.shared dictid, { σ with table := setTable σ.table dictid e1, fs := fs2 },
                  [.acqShared, .relShared, .acqExcl, .build, .relExcl])

/-- release_dict_cache: stat the cache file and return; nothing is
unmapped or unlinked (the function body ends after the existence check). -/
def release_dict_cache (fs : List (Nat × FileD)) (_dictid : Nat) : List (Nat × FileD) :=
  fs

/-- ts_dict_shared_release: decrement the reference count; on zero call
release_dict_cache and delete the hash entry. -/
def ts_dict_shared_release (σ : St) (dictid : Nat) : St :=
  match lookupTable σ.table dictid with
  | some e =>
      let r1 := (e.refcnt + (2 ^ 32 - 1)) % 2 ^ 32
      if r1 = 0 then
        { σ with fs := release_dict_cache σ.fs dictid,
                 table := removeTable σ.table dictid }
      else { σ with table := setTable σ.table dictid { e with refcnt := r1 } }
  | none => { σ with fs := release_dict_cache σ.fs dictid }

/-- Trace predicate: the build callback runs strictly between an
exclusive-lock acquisition and the matching release. -/
def buildUnderExclGo : List Ev → Bool → Bool
  | [], _ => false
  | .acqExcl :: rest, _ => buildUnderExclGo rest true
  | .relExcl :: rest, _ => buildUnderExclGo rest false
  | .build :: rest, inExcl => inExcl || buildUnderExclGo rest inExcl
  | _ :: rest, inExcl => buildUnderExclGo rest inExcl

def buildUnderExcl (evs : List Ev) : Bool := buildUnderExclGo evs false

/-- State extractor for chained runs. -/
def locSt (r : Except CErr (Res × St × List Ev)) : St :=
  match r with
  | .ok (_, σ, _) => σ
  | .error _ => ⟨[], [], 0⟩

/-- Event extractor. -/
def locEvs (r : Except CErr (Res × St × List Ev)) : List Ev :=
  match r with
  | .ok (_, _, evs) => evs
  | .error _ => []

end TsShared

namespace Spell

/-- The build pipeline of dispell_build after the import step:
NISortDictionary then NISortAffixes, assembled into the runtime
dictionary. -/
def buildIspellDict (st : BuildSt) (dict : List SpellRaw) : Except Err IspellDict :=
  match NISortDictionary st dict with
  | .error e => .error e
  | .ok (st1, _, node) =>
      match NISortAffixes st1 with
      | .error e => .error e
      | .ok (sfxT, pfxT, ca) =>
          .ok ⟨node, st1.affixData, sfxT, pfxT, ca, st1.usecompound, st1.flagMode⟩

/-- dispell_build: import the affix file, then sort the dictionary and
affixes (the word list is supplied already split into entries). -/
def dispell_build (affLines : List Word) (dict : List SpellRaw) : Except Err IspellDict :=
  match NIImportAffixes ⟨.fmChar, false, false, [], [], []⟩ affLines with
  | .error e => .error e
  | .ok st => buildIspellDict st dict

def confDefault : IspellDict := ⟨none, [], none, none, [], false, .fmChar⟩

def exceptConf (r : Except Err IspellDict) : IspellDict :=
  match r with
  | .ok c => c
  | .error _ => confDefault

/- Concrete fixtures used by counterexamples and witnesses.  Each conf is
written out as a literal structure; theorems below tie it to the
dispell_build pipeline on the corresponding affix lines and word list. -/

/-- The zeroed initial build state of dispell_build. -/
def stTriv : BuildSt := ⟨.fmChar, false, false, [], [], []⟩

/-- The list under an ok normalization result ([] for an error). -/
def lexsOf (r : Except Err (List TSLexeme)) : List TSLexeme :=
  match r with
  | .ok l => l
  | .error _ => []

/-- "ab". -/
def abW : Word := [97, 98]

def linesC1 : List Word := [wordOf "compoundwords controlled z"]

def dictC1 : List SpellRaw := [⟨abW, [122]⟩]

/-- Build state after importing linesC1 (z is a generic compound flag). -/
def stC1 : BuildSt := ⟨.fmChar, true, false, [⟨.str [122], FF_COMPOUNDFLAG⟩], [], []⟩

/-- The compiled form of dictionary { ab/z } with z declared a compound
flag in the legacy affix format; usecompound is on, no affix rules. -/
def confC1 : IspellDict :=
  ⟨some (.mk [.mk 97 false 0 0 (some (.mk [.mk 98 true 14 0 none]))]),
   [[122]], none, none, [], true, .fmChar⟩

/-- "ab" repeated 130 times: 260 bytes, longer than MAXNORMLEN. -/
def longWord : Word := (List.replicate 130 abW).flatten

/-- A 257-byte word. -/
def w257 : Word := List.replicate 257 97

def dict257 : List SpellRaw := [⟨w257, []⟩]

/-- A chain trie of the byte 97, with isword only at the deepest entry. -/
def chainNode : Nat → Option SPNode
  | 0 => none
  | 1 => some (.mk [.mk 97 true 0 0 none])
  | n + 2 => some (.mk [.mk 97 false 0 0 (chainNode (n + 1))])

/-- The compiled form of the dictionary containing only w257 with no
flags and no affix file. -/
def conf257 : IspellDict := ⟨chainNode 257, [[]], none, none, [], false, .fmChar⟩

def linesHom : List Word := [wordOf "FLAG default", wordOf "ONLYINCOMPOUND z"]

def dictHom : List SpellRaw := [⟨abW, []⟩, ⟨abW, [122]⟩, ⟨abW, [122]⟩]

/-- Build state after importing linesHom (z is only-in-compound). -/
def stHom : BuildSt := ⟨.fmChar, true, false, [⟨.str [122], FF_COMPOUNDONLY⟩], [], []⟩

/-- The compiled form of: affix file declaring z only-in-compound
(Hunspell format), dictionary { ab, ab/z, ab/z }.  The merge at the ab
leaf reinstates FF_COMPOUNDONLY when the duplicated flagged homonym is
processed after the merge, so the leaf carries the compound-only bit. -/
def confHom : IspellDict :=
  ⟨some (.mk [.mk 97 false 0 0 (some (.mk [.mk 98 true 15 1 none]))]),
   [[], [122]], none, none, [], true, .fmChar⟩

def catW : Word := wordOf "cat"
def catxW : Word := wordOf "catx"
def catsW : Word := wordOf "cats"

def lines9 : List Word :=
  [wordOf "SFX A N 1", wordOf "SFX A 0 s .",
   wordOf "SFX C N 1", wordOf "SFX C x s .",
   wordOf "SFX B N 1", wordOf "SFX B t ts ."]

def dict9 : List SpellRaw := [⟨catW, [65, 66]⟩, ⟨catxW, [67]⟩]

/-- Build state after importing lines9 (three simple suffix rules). -/
def st9 : BuildSt :=
  ⟨.fmChar, false, false, [], [],
   [⟨.sfx, [65], 0, true, [], [115]⟩, ⟨.sfx, [67], 0, true, [120], [115]⟩,
    ⟨.sfx, [66], 0, true, [116], [116, 115]⟩]⟩

/-- The compiled form of suffix rules A: strip s; C: s for x; B: ts for t
over dictionary { cat/AB, catx/C }.  Normalizing cats generates cat,
catx, cat. -/
def conf9 : IspellDict :=
  ⟨some (.mk [.mk 99 false 0 0 (some (.mk [.mk 97 false 0 0
      (some (.mk [.mk 116 true 0 0 (some (.mk [.mk 120 true 0 1 none]))]))]))]),
   [[65, 66], [67]],
   some ⟨[], some (.mk [.mk 115
       [⟨.sfx, [65], 0, true, [], [115]⟩, ⟨.sfx, [67], 0, true, [120], [115]⟩]
       (some (.mk [.mk 116 [⟨.sfx, [66], 0, true, [116], [116, 115]⟩] none]))])⟩,
   some ⟨[], none⟩,
   [], false, .fmChar⟩

/-- A suffix rule marked only-in-compound (for the CheckAffix part of the
compound-only claim). -/
def affOnly : Affix := ⟨.sfx, [65], FF_COMPOUNDONLY ||| FF_COMPOUNDFLAG, true, [], [115]⟩

def dictAB : List SpellRaw := [⟨abW, []⟩]

/-- The compiled form of dictionary { ab } with no flags and no affix
file (witness fixture). -/
def confAB : IspellDict :=
  ⟨some (.mk [.mk 97 false 0 0 (some (.mk [.mk 98 true 0 0 none]))]),
   [[]], none, none, [], false, .fmChar⟩

/-- A build state whose Affix-Set Table holds the empty set (index 0, the
flagless homonym) and the set z (index 1). -/
def stMerge : BuildSt := ⟨.fmChar, false, false, [], [[], [122]], []⟩

end Spell

/-! Theorems.  First the unfolding equations of the Nat.rec-encoded
recursions and the stagewise build equalities of the concrete fixtures,
then helper lemmas, then one theorem per claim. -/

namespace Spell

theorem natDigitsGo_zero (n : Nat) : natDigitsGo 0 n = [] := rfl

theorem natDigitsGo_succ (fuel n : Nat) :
    natDigitsGo (fuel + 1) n =
      if n < 10 then [48 + n] else natDigitsGo fuel (n / 10) ++ [48 + n % 10] := rfl

theorem mkSPNodeGo_zero (st : BuildSt) (spells : List SpellD) (level : Nat) :
    mkSPNodeGo 0 st spells level = .error .fuel := rfl

theorem mkSPNodeGo_succ (fuel : Nat) (st : BuildSt) (spells : List SpellD) (level : Nat) :
    mkSPNodeGo (fuel + 1) st spells level =
      (let rel := spells.filter (fun e => level < e.word.length)
       if rel.isEmpty then .ok (st, none)
       else
         match mkSPGroups fuel st (groupByChar level rel) level with
         | .error e => .error e
         | .ok (st1, entries) => .ok (st1, some (.mk entries))) := rfl

theorem mkSPGroups_zero (st : BuildSt) (gs : List (List SpellD)) (level : Nat) :
    mkSPGroups 0 st gs level = .error .fuel := rfl

theorem mkSPGroups_succ_nil (fuel : Nat) (st : BuildSt) (level : Nat) :
    mkSPGroups (fuel + 1) st [] level = .ok (st, []) := rfl

theorem mkSPGroups_succ_cons (fuel : Nat) (st : BuildSt) (g : List SpellD)
    (gs : List (List SpellD)) (level : Nat) :
    mkSPGroups (fuel + 1) st (g :: gs) level =
      (match mkSPLeafFold level st leafAcc0 g with
       | .error e => .error e
       | .ok (st1, acc) =>
           match mkSPNodeGo fuel st1 g (level + 1) with
           | .error e => .error e
           | .ok (st2, child) =>
               match mkSPGroups fuel st2 gs level with
               | .error e => .error e
               | .ok (st3, entries) =>
                   let c := (g.headD ⟨[], 0⟩).word.getD level 0
                   .ok (st3, SPEntry.mk c acc.isword acc.compoundflag acc.affix child :: entries)) := rfl

/- Stagewise build equalities for the fixtures (the whole pipelines are
then assembled by rewriting, which keeps kernel evaluation cheap). -/

theorem importTriv_eq : NIImportAffixes stTriv [] = .ok stTriv := rfl

theorem importC1_eq : NIImportAffixes stTriv linesC1 = .ok stC1 := rfl

theorem importHom_eq : NIImportAffixes stTriv linesHom = .ok stHom := rfl

theorem import9_eq : NIImportAffixes stTriv lines9 = .ok st9 := rfl

theorem buildC1_eq : buildIspellDict stC1 dictC1 = .ok confC1 := rfl

theorem build257_eq : buildIspellDict stTriv dict257 = .ok conf257 := rfl

theorem buildHom_eq : buildIspellDict stHom dictHom = .ok confHom := rfl

theorem build9_eq : buildIspellDict st9 dict9 = .ok conf9 := rfl

theorem buildAB_eq : buildIspellDict stTriv dictAB = .ok confAB := rfl

theorem dispellBuild_split (lines : List Word) (dict : List SpellRaw) (st : BuildSt)
    (conf : IspellDict) (h1 : NIImportAffixes stTriv lines = .ok st)
    (h2 : buildIspellDict st dict = .ok conf) :
    dispell_build lines dict = .ok conf := by
  unfold dispell_build
  have h0 : NIImportAffixes ⟨.fmChar, false, false, [], [], []⟩ lines = .ok st := h1
  rw [h0]
  exact h2

theorem dispellC1_eq : dispell_build linesC1 dictC1 = .ok confC1 :=
  dispellBuild_split _ _ _ _ importC1_eq buildC1_eq

theorem dispell257_eq : dispell_build [] dict257 = .ok conf257 :=
  dispellBuild_split _ _ _ _ importTriv_eq build257_eq

theorem dispellHom_eq : dispell_build linesHom dictHom = .ok confHom :=
  dispellBuild_split _ _ _ _ importHom_eq buildHom_eq

theorem dispell9_eq : dispell_build lines9 dict9 = .ok conf9 :=
  dispellBuild_split _ _ _ _ import9_eq build9_eq

theorem dispellAB_eq : dispell_build [] dictAB = .ok confAB :=
  dispellBuild_split _ _ _ _ importTriv_eq buildAB_eq

end Spell

namespace TsShared

/-- C2.  The claim says ts_dict_shared_location checks the configured byte
quota before publishing and that a quota of zero disables the cache; in
this source tree the function never reads max_shared_dictionaries_size
(the state's quota field): with the quota configured to 0 and an empty
cache, a call for an uncached dictionary still builds, publishes the
entry with refcnt 1 into the hash table, creates the cache file, and
returns the shared mapping instead of a private copy. -/
theorem C2_quota_ignored :
    ts_dict_shared_location ⟨[], [], 0⟩ 7 true [1, 2, 3] =
      .ok (.shared 7, ⟨[(7, ⟨7, 3, 1⟩)], [(7, ⟨PG_MAJOR, [1, 2, 3]⟩)], 0⟩,
        [.acqShared, .relShared, .acqExcl, .build, .relExcl]) := by decide

/-- C3.  After two attaches and two releases of the same identity, the
hash-table entry is gone but the cache file is still on disk:
release_dict_cache only stats the file and returns, so the shared storage
is never deallocated. -/
theorem C3_release_leaves_file :
    (let σ1 := locSt (ts_dict_shared_location ⟨[], [], 0⟩ 7 true [1, 2, 3])
     let σ2 := locSt (ts_dict_shared_location σ1 7 true [1, 2, 3])
     let σ3 := ts_dict_shared_release σ2 7
     let σ4 := ts_dict_shared_release σ3 7
     lookupTable σ4.table 7 = none ∧ lookupFs σ4.fs 7 = some ⟨PG_MAJOR, [1, 2, 3]⟩) := by
  decide

/-- C4 counterexample.  The claim says the build callback is never
invoked while the exclusive lock is held; in the run that builds a new
uncached dictionary the callback fires between dshash_find_or_insert's
exclusive acquisition and the final release. -/
theorem C4_counterexample :
    buildUnderExcl (locEvs (ts_dict_shared_location ⟨[], [], 0⟩ 7 true [1, 2, 3])) = true := by
  decide

/-- C4 amended.  For every state in which the dictionary is neither in
the hash table nor present as a cache file, a valid-id call produces
exactly the trace shared-probe, exclusive acquire, build, exclusive
release: the build callback runs inside the exclusive section (only the
invalid-dictid path builds without the lock). -/
theorem C4_amended (σ : St) (dictid : Nat) (blob : List Nat) (r : Res) (σ2 : St)
    (evs : List Ev) (h1 : lookupTable σ.table dictid = none)
    (h2 : lookupFs σ.fs dictid = none)
    (h3 : ts_dict_shared_location σ dictid true blob = .ok (r, σ2, evs)) :
    evs = [.acqShared, .relShared, .acqExcl, .build, .relExcl] ∧ buildUnderExcl evs = true := by
  unfold ts_dict_shared_location at h3
  rw [h1, h2] at h3
  unfold get_dict_address at h3
  rw [h2] at h3
  simp only [Bool.not_true, Bool.false_eq_true, if_false, if_true] at h3
  cases h3
  exact ⟨rfl, rfl⟩

theorem C4_amended_witness :
    buildUnderExcl [Ev.acqShared, Ev.relShared, Ev.acqExcl, Ev.build, Ev.relExcl] = true :=
  (C4_amended ⟨[], [], 0⟩ 7 [1, 2, 3] (.shared 7)
    ⟨[(7, ⟨7, 3, 1⟩)], [(7, ⟨PG_MAJOR, [1, 2, 3]⟩)], 0⟩
    [.acqShared, .relShared, .acqExcl, .build, .relExcl] rfl rfl (by decide)).2

end TsShared

namespace Spell

theorem findWordGo_only (conf : IspellDict) :
    ∀ (w : Word) (nodeQ : Option SPNode) (af : Word) (d : SPEntry),
      leafEntryGo nodeQ w = some d → d.compoundflag &&& FF_COMPOUNDONLY ≠ 0 →
      findWordGo conf nodeQ w af 0 = .ok false := by
  intro w
  induction w with
  | nil =>
      intro nodeQ af d h _
      cases nodeQ <;> simp [leafEntryGo] at h
  | cons c rest ih =>
      intro nodeQ af d h honly
      cases nodeQ with
      | none => simp [leafEntryGo] at h
      | some node =>
          unfold leafEntryGo at h
          unfold findWordGo
          cases hs : spSearch node.data c with
          | none => simp [hs] at h
          | some e =>
              rw [hs] at h
              cases rest with
              | nil =>
                  cases h
                  cases hw : d.isword <;> simp [hw, honly]
              | cons c2 rest2 =>
                  exact ih e.child af d h honly

/-- C10: a dictionary word marked only-in-compound is never reported as a
valid root by a non-compound lookup (compound flag zero): when the trie
descent for the word ends at a leaf whose compound bitmask contains
FF_COMPOUNDONLY, FindWord with flag 0 answers false whatever affix flag
is passed; and CheckAffix never applies an affix rule marked
FF_COMPOUNDONLY outside compound segmentation. -/
theorem C10_compound_only_blocked :
    (∀ (conf : IspellDict) (w af : Word) (d : SPEntry),
        leafEntry conf w = some d → d.compoundflag &&& FF_COMPOUNDONLY ≠ 0 →
        findWord conf w af 0 = .ok false) ∧
    (∀ (word : Word) (len : Nat) (aff : Affix) (baselen : Option Nat),
        aff.flagflags &&& FF_COMPOUNDONLY ≠ 0 → checkAffix word len aff 0 baselen = none) := by
  constructor
  · intro conf w af d h honly
    exact findWordGo_only conf w conf.Dictionary af d h honly
  · intro word len aff baselen h
    simp [checkAffix, h]

theorem C10_witness :
    findWord confHom abW [] 0 = .ok false ∧ checkAffix abW 2 affOnly 0 none = none :=
  ⟨C10_compound_only_blocked.1 confHom abW [] (.mk 98 true 15 1 none) rfl (by decide),
   C10_compound_only_blocked.2 abW 2 affOnly none (by decide)⟩

end Spell

namespace Spell

theorem addToResult_chain (forms : List Word) (w : Word)
    (h : List.Chain' (· ≠ ·) forms) : List.Chain' (· ≠ ·) (addToResult forms w) := by
  unfold addToResult
  split
  · exact h
  · split
    · rename_i hcap hne
      rw [List.chain'_append]
      refine ⟨h, List.chain'_singleton w, ?_⟩
      intro x hx y hy
      simp only [List.head?_cons, Option.mem_def, Option.some.injEq] at hy
      subst hy
      rcases hne with hnil | hlast
      · subst hnil; simp at hx
      · intro hxy
        subst hxy
        exact hlast hx
    · exact h

theorem addToResult_drop (forms : List Word) (w : Word) (hcap : forms.length < MAX_NORM - 1)
    (h : addToResult forms w = forms) : forms.getLast? = some w := by
  unfold addToResult at h
  rw [if_neg (by omega)] at h
  by_cases hc : forms = [] ∨ forms.getLast? ≠ some w
  · rw [if_pos hc] at h
    have := congrArg List.length h
    simp at this
  · rw [if_neg hc] at h
    push_neg at hc
    exact hc.2

theorem prefixAffFold_nil (conf : IspellDict) (w : Word) (len flag : Nat)
    (baselen : Option Nat) (sAffQ : Option Affix) (forms : List Word) :
    prefixAffFold conf w len flag baselen sAffQ [] forms = .ok forms := rfl

theorem prefixAffFold_cons (conf : IspellDict) (w : Word) (len flag : Nat)
    (baselen : Option Nat) (sAffQ : Option Affix) (aff : Affix) (rest : List Affix)
    (forms : List Word) :
    prefixAffFold conf w len flag baselen sAffQ (aff :: rest) forms =
      match checkAffix w len aff flag baselen with
      | none => prefixAffFold conf w len flag baselen sAffQ rest forms
      | some newword =>
          match findWord conf newword
              (match sAffQ with
               | some sa =>
                   if aff.flagflags &&& sa.flagflags &&& FF_CROSSPRODUCT ≠ 0 then ([] : Word)
                   else aff.flag
               | none => aff.flag) flag with
          | .error e => .error e
          | .ok true =>
              prefixAffFold conf w len flag baselen sAffQ rest (addToResult forms newword)
          | .ok false => prefixAffFold conf w len flag baselen sAffQ rest forms := rfl

theorem prefixAffFold_chain (conf : IspellDict) (w : Word) (len flag : Nat)
    (baselen : Option Nat) (sAffQ : Option Affix) :
    ∀ (affs : List Affix) (forms forms1 : List Word),
      prefixAffFold conf w len flag baselen sAffQ affs forms = .ok forms1 →
      List.Chain' (· ≠ ·) forms → List.Chain' (· ≠ ·) forms1 := by
  intro affs
  induction affs with
  | nil =>
      intro forms forms1 h hc
      rw [prefixAffFold_nil] at h
      cases h
      exact hc
  | cons a rest ih =>
      intro forms forms1 h hc
      rw [prefixAffFold_cons] at h
      split at h
      · exact ih forms forms1 h hc
      · split at h
        · cases h
        · exact ih _ forms1 h (addToResult_chain forms _ hc)
        · exact ih forms forms1 h hc

theorem prefixWalk_chain (conf : IspellDict) (w : Word) (len flag : Nat)
    (baselen : Option Nat) (sAffQ : Option Affix) :
    ∀ (path : List ANEntry) (forms forms1 : List Word),
      prefixWalk conf w len flag baselen sAffQ path forms = .ok forms1 →
      List.Chain' (· ≠ ·) forms → List.Chain' (· ≠ ·) forms1 := by
  intro path
  induction path with
  | nil =>
      intro forms forms1 h hc
      unfold prefixWalk at h
      cases h
      exact hc
  | cons e rest ih =>
      intro forms forms1 h hc
      unfold prefixWalk at h
      cases hf : prefixAffFold conf w len flag baselen sAffQ e.affs forms with
      | error err => rw [hf] at h; cases h
      | ok f1 =>
          rw [hf] at h
          exact ih f1 forms1 h (prefixAffFold_chain conf w len flag baselen sAffQ e.affs forms f1 hf hc)

theorem suffixAffFold_chain (conf : IspellDict) (word : Word) (wrdlen flag : Nat) :
    ∀ (affs : List Affix) (forms forms1 : List Word),
      suffixAffFold conf word wrdlen flag affs forms = .ok forms1 →
      List.Chain' (· ≠ ·) forms → List.Chain' (· ≠ ·) forms1 := by
  intro affs
  induction affs with
  | nil =>
      intro forms forms1 h hc
      unfold suffixAffFold at h
      cases h
      exact hc
  | cons a rest ih =>
      intro forms forms1 h hc
      unfold suffixAffFold at h
      split at h
      · exact ih forms forms1 h hc
      · split at h
        · cases h
        · rename_i newword hca x0 b hfw
          split at h
          · cases h
          · rename_i x1 f2 hpw
            refine ih f2 forms1 h ?_
            refine prefixWalk_chain conf newword newword.length flag
              (some (wrdlen - a.repl.length)) (some a) _ _ f2 hpw ?_
            cases b
            · exact hc
            · exact addToResult_chain forms newword hc

theorem suffixWalk_chain (conf : IspellDict) (word : Word) (wrdlen flag : Nat) :
    ∀ (path : List ANEntry) (forms forms1 : List Word),
      suffixWalk conf word wrdlen flag path forms = .ok forms1 →
      List.Chain' (· ≠ ·) forms → List.Chain' (· ≠ ·) forms1 := by
  intro path
  induction path with
  | nil =>
      intro forms forms1 h hc
      unfold suffixWalk at h
      cases h
      exact hc
  | cons e rest ih =>
      intro forms forms1 h hc
      unfold suffixWalk at h
      cases hf : suffixAffFold conf word wrdlen flag e.affs forms with
      | error err => rw [hf] at h; cases h
      | ok f1 =>
          rw [hf] at h
          exact ih f1 forms1 h (suffixAffFold_chain conf word wrdlen flag e.affs forms f1 hf hc)

theorem normalizeSubWord_chain (conf : IspellDict) (w : Word) (flag : Nat)
    (forms : List Word) (h : normalizeSubWord conf w flag = .ok forms) :
    List.Chain' (· ≠ ·) forms := by
  unfold normalizeSubWord at h
  split at h
  · cases h; exact List.chain'_nil
  · split at h
    · cases h
    · rename_i x0 b hfb
      split at h
      · cases h
      · rename_i x1 f1 hpw
        split at h
        · cases h
        · rename_i x2 f2 hsw
          cases h
          refine suffixWalk_chain conf w w.length flag _ f1 forms hsw ?_
          refine prefixWalk_chain conf w w.length flag none none _ _ f1 hpw ?_
          cases b
          · exact List.chain'_nil
          · exact List.chain'_singleton w

/-- C9: the normalizer's deduplication is adjacent-only.  Every result
list of NormalizeSubWord has no two adjacent equal entries; a candidate
is dropped by addToResult (below the result cap) only when it equals the
immediately preceding accepted candidate; and non-adjacent duplicates do
occur: on the cat/catx fixture, cats normalizes to cat, catx, cat. -/
theorem C9_adjacent_only_dedup :
    (∀ (conf : IspellDict) (w : Word) (flag : Nat) (forms : List Word),
        normalizeSubWord conf w flag = .ok forms → List.Chain' (· ≠ ·) forms) ∧
    (∀ (forms : List Word) (w : Word), forms.length < MAX_NORM - 1 →
        addToResult forms w = forms → forms.getLast? = some w) ∧
    (normalizeSubWord conf9 catsW 0 = .ok [catW, catxW, catW] ∧ catW ≠ catxW) :=
  ⟨normalizeSubWord_chain, addToResult_drop, by constructor <;> decide⟩

theorem C9_witness : List.Chain' (· ≠ ·) [catW, catxW, catW] :=
  C9_adjacent_only_dedup.1 conf9 catsW 0 [catW, catxW, catW]
    C9_adjacent_only_dedup.2.2.1

theorem getNextFlagFromString_num_cons (c : Nat) (cs : Word) :
    getNextFlagFromString .fmNum (c :: cs) =
      (match strtol (c :: cs) with
       | none => .error .config
       | some (n, next) =>
           if n < 0 || n > (FLAGNUM_MAXSIZE : Int) then .error .config
           else
             match numFlagScan next false with
             | .error e => .error e
             | .ok rest => .ok (natDigits n.toNat, rest)) := rfl

/-- C6 counterexample to the claimed [0, 65000] range: in numeric flag
mode the value 65100 passes validation, both in getNextFlagFromString and
in setCompoundAffixFlagValue. -/
theorem C6_counterexample :
    getNextFlagFromString .fmNum (wordOf "65100") = .ok (wordOf "65100", []) ∧
    setCompoundAffixFlagValue .fmNum (wordOf "65100") FF_COMPOUNDFLAG =
      .ok ⟨.num 65100, FF_COMPOUNDFLAG⟩ ∧
    65000 < 65100 := by decide

/-- C6: numeric affix flags are validated, but against the inclusive
bound FLAGNUM_MAXSIZE = 65536, not 65000.  A flag extracted successfully
is the decimal rendering of a value at most 65536; a parsed value outside
[0, 65536] raises the configuration error, as does a leading non-number;
setCompoundAffixFlagValue applies the same range check; and the scan
after the number rejects a second number without a separating comma and a
doubled comma while accepting whitespace around the comma. -/
theorem C6_amended :
    (∀ (s flag rest : Word), getNextFlagFromString .fmNum s = .ok (flag, rest) →
        flag = [] ∨ ∃ n : Nat, (n : Int) ≤ (FLAGNUM_MAXSIZE : Int) ∧ flag = natDigits n) ∧
    (∀ (s : Word) (n : Int) (next : Word), strtol s = some (n, next) →
        n < 0 ∨ (FLAGNUM_MAXSIZE : Int) < n →
        getNextFlagFromString .fmNum s = .error .config) ∧
    (∀ (s : Word), s ≠ [] → strtol s = none →
        getNextFlagFromString .fmNum s = .error .config) ∧
    (∀ (s : Word) (val : Nat) (n : Int) (next : Word), strtol s = some (n, next) →
        n < 0 ∨ (FLAGNUM_MAXSIZE : Int) < n →
        setCompoundAffixFlagValue .fmNum s val = .error .config) ∧
    (getNextFlagFromString .fmNum (wordOf "5 7") = .error .config ∧
     getNextFlagFromString .fmNum (wordOf "5,,7") = .error .config ∧
     getNextFlagFromString .fmNum (wordOf "5, 7") = .ok (natDigits 5, wordOf "7")) := by
  refine ⟨?_, ?_, ?_, ?_, by decide⟩
  · intro s flag rest h
    cases s with
    | nil => exact Or.inl (by cases h; rfl)
    | cons c cs =>
        right
        rw [getNextFlagFromString_num_cons] at h
        split at h
        · cases h
        · rename_i x1 n next hst
          split at h
          · cases h
          · rename_i hrange
            split at h
            · cases h
            · rename_i x2 r hscan
              cases h
              refine ⟨n.toNat, ?_, rfl⟩
              have h0 : ¬(n < 0 ∨ (FLAGNUM_MAXSIZE : Int) < n) := by
                simpa using hrange
              push_neg at h0
              omega
  · intro s n next hst hout
    cases s with
    | nil => simp [strtol] at hst
    | cons c cs =>
        rw [getNextFlagFromString_num_cons, hst]
        rcases hout with h | h <;> simp [h]
  · intro s hne hst
    cases s with
    | nil => exact absurd rfl hne
    | cons c cs =>
        rw [getNextFlagFromString_num_cons, hst]
  · intro s val n next hst hout
    unfold setCompoundAffixFlagValue
    rw [hst]
    rcases hout with h | h <;> simp [h]

theorem C6_amended_witness :
    getNextFlagFromString .fmNum (wordOf "70000") = .error .config :=
  C6_amended.2.1 (wordOf "70000") 70000 [] (by decide) (Or.inr (by decide))

theorem NIImportAffixesGo_cons (allLines : List Word) (line : Word) (rest : List Word)
    (s : OldSt) :
    NIImportAffixesGo allLines (line :: rest) s =
      (match oldStep line s with
       | .fail e => .error e
       | .next s1 => NIImportAffixesGo allLines rest s1
       | .newFmt =>
           if s.oldformat then .error .config else NIImportOOAffixes s.st allLines) := rfl

/-- If the line classifies as a new-format command, oldStep detects it
whatever the reader state is. -/
theorem oldStep_of_newFmt (line : Word) (s : OldSt) (h : oldClassify line = .newFmt) :
    oldStep line s = .newFmt := by
  unfold oldStep
  rw [h]

/-- Each line is either a new-format trigger (independently of the
state), or advances to a state whose oldformat bit is at least the old
one, or fails. -/
theorem oldStep_cases (line : Word) (s : OldSt) :
    (oldClassify line = .newFmt ∧ oldStep line s = .newFmt) ∨
    (∃ s1, oldStep line s = .next s1 ∧ (s.oldformat = true → s1.oldformat = true)) ∨
    (∃ e, oldStep line s = .fail e) := by
  unfold oldStep
  cases h : oldClassify line with
  | comment => exact Or.inr (Or.inl ⟨s, rfl, fun hh => hh⟩)
  | cmpdwords t1 =>
      refine Or.inr ?_
      dsimp only
      split
      · split
        · exact Or.inr ⟨_, rfl⟩
        · exact Or.inl ⟨_, rfl, fun _ => rfl⟩
      · exact Or.inl ⟨_, rfl, fun _ => rfl⟩
  | sfxHeader => exact Or.inr (Or.inl ⟨_, rfl, fun _ => rfl⟩)
  | pfxHeader => exact Or.inr (Or.inl ⟨_, rfl, fun _ => rfl⟩)
  | flagSet f ff => exact Or.inr (Or.inl ⟨_, rfl, fun _ => rfl⟩)
  | newFmt => exact Or.inl ⟨rfl, rfl⟩
  | entry pstr =>
      refine Or.inr ?_
      dsimp only
      split
      · exact Or.inl ⟨_, rfl, fun hh => hh⟩
      · split
        · exact Or.inr ⟨_, rfl⟩
        · exact Or.inl ⟨_, rfl, fun hh => hh⟩
        · split
          · exact Or.inr ⟨_, rfl⟩
          · exact Or.inl ⟨_, rfl, fun hh => hh⟩

/-- C8 counterexample: an affix file whose new-style command precedes the
legacy suffixes directive is imported without error (the legacy directive
is silently ignored by the new-format reader), so mixed files raise an
error in one order only. -/
theorem C8_counterexample :
    NIImportAffixes stTriv [wordOf "PFX A Y 1", wordOf "suffixes"] = .ok stTriv := by
  decide

/-- C8: mixing the two affix dialects is rejected only when a legacy
command comes first.  Once a legacy command has set the oldformat bit,
reaching any new-format command — after any stretch of non-new-format
lines — raises an error; and concretely a file with the legacy command
first errors, while C8_counterexample shows the reverse order is
accepted. -/
theorem C8_amended :
    (∀ (allLines mid rest : List Word) (line1 : Word) (s : OldSt),
        s.oldformat = true →
        (∀ l ∈ mid, oldClassify l ≠ OldClass.newFmt) →
        oldClassify line1 = OldClass.newFmt →
        ∃ e, NIImportAffixesGo allLines (mid ++ line1 :: rest) s = .error e) ∧
    NIImportAffixes stTriv [wordOf "suffixes", wordOf "PFX A Y 1"] = .error .config := by
  constructor
  · intro allLines mid rest line1
    induction mid with
    | nil =>
        intro s hold hmid hnew
        refine ⟨.config, ?_⟩
        rw [List.nil_append, NIImportAffixesGo_cons, oldStep_of_newFmt line1 s hnew]
        simp [hold]
    | cons l mid ih =>
        intro s hold hmid hnew
        have hcl : oldClassify l ≠ OldClass.newFmt := hmid l (by simp)
        rcases oldStep_cases l s with ⟨hc, _⟩ | ⟨s1, hstep, hmono⟩ | ⟨e, hstep⟩
        · exact absurd hc hcl
        · rcases ih s1 (hmono hold) (fun x hx => hmid x (by simp [hx])) hnew with ⟨e, he⟩
          refine ⟨e, ?_⟩
          rw [List.cons_append, NIImportAffixesGo_cons, hstep]
          exact he
        · refine ⟨e, ?_⟩
          rw [List.cons_append, NIImportAffixesGo_cons, hstep]
  · decide

theorem C8_amended_witness :
    ∃ e, NIImportAffixesGo [] [wordOf "SFX A Y 1"] ⟨stTriv, true, false, [], 0, true⟩ =
      .error e :=
  C8_amended.1 [] [] [] (wordOf "SFX A Y 1") ⟨stTriv, true, false, [], 0, true⟩ rfl
    (by intro l hl; cases hl) (by decide)

theorem andMaskOnly (y : Nat) :
    (y &&& (FF_COMPOUNDFLAGMASK ^^^ FF_COMPOUNDONLY)) &&& FF_COMPOUNDONLY = 0 := by
  show (y &&& 14) &&& 1 = 0
  rw [Nat.and_assoc]
  exact Nat.and_zero y

theorem MergeAffix_nonempty (st : BuildSt) (a1 a2 : Nat)
    (h1 : AffixDataGet st a1 ≠ []) (h2 : AffixDataGet st a2 ≠ []) :
    MergeAffix st a1 a2 =
      ({ st with affixData := st.affixData ++
          [if st.flagMode = .fmNum then AffixDataGet st a1 ++ [44] ++ AffixDataGet st a2
           else AffixDataGet st a1 ++ AffixDataGet st a2] },
       st.affixData.length) := by
  unfold MergeAffix
  rw [if_neg h1, if_neg h2]

/-- C7 counterexample: two homonym entries whose affix-set indices differ
but one set is empty (ab and ab/z).  MergeAffix returns the nonempty
set's existing index and leaves the Affix-Set Table unchanged: no new
distinct entry is created, against the claimed unconditional
concatenation. -/
theorem C7_counterexample :
    MergeAffix stMerge 0 1 = (stMerge, 1) ∧ (0 : Nat) ≠ 1 ∧
    stMerge.affixData = [[], [122]] := by decide

/-- C7: homonym affix sets are merged by concatenation into a fresh
Affix-Set Table entry only when both sets are nonempty (comma-joined in
numeric flag mode); the fresh index differs from every existing index;
and in the merge step of mkSPNode the recomputed compound bitmask has
FF_COMPOUNDONLY cleared whenever the already-stored variant and the
incoming variant are not both compound-only. -/
theorem C7_amended :
    (∀ (st : BuildSt) (a1 a2 : Nat),
        AffixDataGet st a1 ≠ [] → AffixDataGet st a2 ≠ [] →
        MergeAffix st a1 a2 =
          ({ st with affixData := st.affixData ++
              [if st.flagMode = .fmNum then
                  AffixDataGet st a1 ++ [44] ++ AffixDataGet st a2
                else AffixDataGet st a1 ++ AffixDataGet st a2] },
           st.affixData.length)) ∧
    (∀ (st : BuildSt) (a1 a2 : Nat), a1 < st.affixData.length → a2 < st.affixData.length →
        AffixDataGet st a1 ≠ [] → AffixDataGet st a2 ≠ [] →
        (MergeAffix st a1 a2).2 ≠ a1 ∧ (MergeAffix st a1 a2).2 ≠ a2) ∧
    (∀ (st : BuildSt) (d : LeafAcc) (incAffix : Nat) (st1 : BuildSt) (acc1 : LeafAcc)
        (incFlags : Nat),
        d.isword = true → d.affix ≠ incAffix →
        makeCompoundFlags st incAffix = .ok incFlags →
        FF_COMPOUNDONLY &&& d.compoundflag &&& incFlags = 0 →
        spLeafUpdate st d incAffix = .ok (st1, acc1) →
        acc1.compoundflag &&& FF_COMPOUNDONLY = 0) := by
  refine ⟨fun st a1 a2 h1 h2 => MergeAffix_nonempty st a1 a2 h1 h2, ?_, ?_⟩
  · intro st a1 a2 hl1 hl2 h1 h2
    rw [MergeAffix_nonempty st a1 a2 h1 h2]
    constructor
    · show st.affixData.length ≠ a1
      omega
    · show st.affixData.length ≠ a2
      omega
  · intro st d incAffix st1 acc1 incFlags h1 h2 h3 h4 h5
    unfold spLeafUpdate at h5
    rw [if_pos ⟨h1, h2⟩, h3] at h5
    simp only [h4] at h5
    split at h5
    · cases h5
    · rename_i cf hcf
      cases h5
      show ((if cf &&& FF_COMPOUNDONLY ≠ 0 ∧ cf &&& FF_COMPOUNDFLAG = 0 then
          cf ||| FF_COMPOUNDFLAG else cf) &&&
        (FF_COMPOUNDFLAGMASK ^^^ FF_COMPOUNDONLY)) &&& FF_COMPOUNDONLY = 0
      exact andMaskOnly _

theorem C7_amended_witness :
    (MergeAffix stMerge 1 1 =
      ({ stMerge with affixData := stMerge.affixData ++
          [if stMerge.flagMode = .fmNum then
              AffixDataGet stMerge 1 ++ [44] ++ AffixDataGet stMerge 1
            else AffixDataGet stMerge 1 ++ AffixDataGet stMerge 1] },
       stMerge.affixData.length)) ∧
    (⟨true, 1, 0⟩ : LeafAcc).compoundflag &&& FF_COMPOUNDONLY = 0 :=
  ⟨C7_amended.1 stMerge 1 1 (by decide) (by decide),
   C7_amended.2.2 stMerge ⟨true, 0, 0⟩ 1 stMerge ⟨true, 1, 0⟩ 0 rfl (by decide) (by decide)
     (by decide) (by decide)⟩

theorem addNorm_bound (l : List TSLexeme) (w : Word) (f n : Nat)
    (h : l.length ≤ MAX_NORM - 1) : (addNorm l w f n).length ≤ MAX_NORM - 1 := by
  unfold addNorm
  split
  · rename_i hlt
    unfold MAX_NORM at hlt ⊢
    simp
    omega
  · exact h

theorem addNormLoop_bound :
    ∀ (ws : List Word) (l : List TSLexeme) (n : Nat), l.length ≤ MAX_NORM - 1 →
      (addNormLoop ws l n).1.length ≤ MAX_NORM - 1 := by
  intro ws
  induction ws with
  | nil => intro l n h; exact h
  | cons w rest ih =>
      intro l n h
      unfold addNormLoop
      split
      · exact ih _ _ (addNorm_bound l w 0 n h)
      · exact h

theorem foldlAddNorm_bound :
    ∀ (ws : List Word) (l : List TSLexeme) (n : Nat), l.length ≤ MAX_NORM - 1 →
      (ws.foldl (fun acc w => addNorm acc w 0 n) l).length ≤ MAX_NORM - 1 := by
  intro ws
  induction ws with
  | nil => intro l n h; exact h
  | cons w rest ih => intro l n h; exact ih _ _ (addNorm_bound l w 0 n h)

theorem compoundEmit_bound :
    ∀ (subs stems : List Word) (l : List TSLexeme) (n : Nat),
      l.length ≤ MAX_NORM - 1 → (compoundEmit stems subs l n).1.length ≤ MAX_NORM - 1 := by
  intro subs
  induction subs with
  | nil => intro stems l n h; exact h
  | cons sub rest ih =>
      intro stems l n h
      exact ih stems _ _ (addNorm_bound _ sub 0 n (foldlAddNorm_bound _ l n h))

theorem compoundLoop_cons (conf : IspellDict) (stems : List Word)
    (rest : List (List Word)) (l : List TSLexeme) (n : Nat) :
    compoundLoop conf (stems :: rest) l n =
      (if 1 < stems.length then
        match normalizeSubWord conf (stems.getLastD []) FF_COMPOUNDLAST with
        | .error e => .error e
        | .ok subres =>
            if subres.isEmpty then compoundLoop conf rest l n
            else
              compoundLoop conf rest (compoundEmit stems subres l n).1
                (compoundEmit stems subres l n).2
      else compoundLoop conf rest l n) := rfl

theorem compoundLoop_bound (conf : IspellDict) :
    ∀ (vars : List (List Word)) (l : List TSLexeme) (n : Nat) (r : List TSLexeme × Nat),
      l.length ≤ MAX_NORM - 1 → compoundLoop conf vars l n = .ok r →
      r.1.length ≤ MAX_NORM - 1 := by
  intro vars
  induction vars with
  | nil =>
      intro l n r h he
      cases he
      exact h
  | cons stems rest ih =>
      intro l n r h he
      rw [compoundLoop_cons] at he
      split at he
      · split at he
        · cases he
        · split at he
          · exact ih _ _ _ h he
          · exact ih _ _ _ (compoundEmit_bound _ _ _ _ h) he
      · exact ih _ _ _ h he

theorem NINormalizeWord_eq (conf : IspellDict) (word : Word) :
    NINormalizeWord conf word =
      (match normalizeSubWord conf word 0 with
       | .error e => .error e
       | .ok res =>
           if conf.usecompound then
             match splitToVariants conf (stvFuel word.length) none [] word word.length 0 (-1) with
             | .error e => .error e
             | .ok vars =>
                 match compoundLoop conf vars (addNormLoop res [] 1).1
                     (addNormLoop res [] 1).2 with
                 | .error e => .error e
                 | .ok q => .ok q.1
           else .ok (addNormLoop res [] 1).1) := rfl

/-- C1 counterexample: an input word longer than 256 bytes does not
always produce an empty result.  On the compiled compound dictionary
{ ab/z } (z a generic compound flag), the 260-byte word (ab)x130 is
segmented by the compound path into 130 candidate lexemes. -/
theorem C1_counterexample :
    dispell_build linesC1 dictC1 = .ok confC1 ∧
    MAXNORMLEN < longWord.length ∧
    (lexsOf (NINormalizeWord confC1 longWord)).length = 130 :=
  ⟨dispellC1_eq, by decide, by decide⟩

/-- C1: the normalizer returns at most 1024 candidate lexemes on every
successful path, and an input word longer than 256 bytes yields the
empty result when the dictionary does not use compound words; with
compound usage the oversize word itself is skipped but its compound
segmentation still produces candidates (C1_counterexample). -/
theorem C1_amended :
    (∀ (conf : IspellDict) (w : Word) (lexs : List TSLexeme),
        NINormalizeWord conf w = .ok lexs → lexs.length ≤ MAX_NORM) ∧
    (∀ (conf : IspellDict) (w : Word), MAXNORMLEN < w.length →
        conf.usecompound = false → NINormalizeWord conf w = .ok []) := by
  constructor
  · intro conf w lexs h
    rw [NINormalizeWord_eq] at h
    split at h
    · cases h
    · rename_i res hres
      have h0 : (addNormLoop res [] 1).1.length ≤ MAX_NORM - 1 :=
        addNormLoop_bound res [] 1 (by simp)
      split at h
      · split at h
        · cases h
        · rename_i vars hvars
          split at h
          · cases h
          · rename_i q hq
            cases h
            have h1 := compoundLoop_bound conf vars _ _ q h0 hq
            unfold MAX_NORM at h1 ⊢
            omega
      · cases h
        unfold MAX_NORM at h0 ⊢
        omega
  · intro conf w h1 h2
    have hn : normalizeSubWord conf w 0 = .ok [] := by
      unfold normalizeSubWord
      rw [if_pos h1]
    rw [NINormalizeWord_eq, hn, h2]
    rfl

theorem C1_amended_witness :
    ([(⟨abW, 0, 1⟩ : TSLexeme)]).length ≤ MAX_NORM ∧
    NINormalizeWord conf257 longWord = .ok [] :=
  ⟨C1_amended.1 confAB abW [⟨abW, 0, 1⟩] (by decide),
   C1_amended.2 conf257 longWord (by decide) rfl⟩

theorem findWordGo_found (conf : IspellDict) :
    ∀ (w : Word) (nodeQ : Option SPNode) (d : SPEntry),
      leafEntryGo nodeQ w = some d → d.isword = true →
      d.compoundflag &&& FF_COMPOUNDONLY = 0 →
      findWordGo conf nodeQ w [] 0 = .ok true := by
  intro w
  induction w with
  | nil =>
      intro nodeQ d h _ _
      cases nodeQ <;> simp [leafEntryGo] at h
  | cons c rest ih =>
      intro nodeQ d h hw hcf
      cases nodeQ with
      | none => simp [leafEntryGo] at h
      | some node =>
          unfold leafEntryGo at h
          unfold findWordGo
          cases hs : spSearch node.data c with
          | none => simp [hs] at h
          | some e =>
              rw [hs] at h
              cases rest with
              | nil =>
                  cases h
                  simp [hw, hcf, isAffixFlagInUse]
              | cons c2 rest2 =>
                  exact ih e.child d h hw hcf

theorem addToResult_pre (forms : List Word) (w : Word) : forms <+: addToResult forms w := by
  unfold addToResult
  split
  · exact List.prefix_rfl
  · split
    · exact ⟨[w], rfl⟩
    · exact List.prefix_rfl

theorem prefixAffFold_pre (conf : IspellDict) (w : Word) (len flag : Nat)
    (baselen : Option Nat) (sAffQ : Option Affix) :
    ∀ (affs : List Affix) (forms forms1 : List Word),
      prefixAffFold conf w len flag baselen sAffQ affs forms = .ok forms1 →
      forms <+: forms1 := by
  intro affs
  induction affs with
  | nil =>
      intro forms forms1 h
      rw [prefixAffFold_nil] at h
      cases h
      exact List.prefix_rfl
  | cons a rest ih =>
      intro forms forms1 h
      rw [prefixAffFold_cons] at h
      split at h
      · exact ih forms forms1 h
      · split at h
        · cases h
        · exact (addToResult_pre forms _).trans (ih _ forms1 h)
        · exact ih forms forms1 h

theorem prefixWalk_pre (conf : IspellDict) (w : Word) (len flag : Nat)
    (baselen : Option Nat) (sAffQ : Option Affix) :
    ∀ (path : List ANEntry) (forms forms1 : List Word),
      prefixWalk conf w len flag baselen sAffQ path forms = .ok forms1 →
      forms <+: forms1 := by
  intro path
  induction path with
  | nil =>
      intro forms forms1 h
      unfold prefixWalk at h
      cases h
      exact List.prefix_rfl
  | cons e rest ih =>
      intro forms forms1 h
      unfold prefixWalk at h
      cases hf : prefixAffFold conf w len flag baselen sAffQ e.affs forms with
      | error err => rw [hf] at h; cases h
      | ok f1 =>
          rw [hf] at h
          exact (prefixAffFold_pre conf w len flag baselen sAffQ e.affs forms f1 hf).trans
            (ih f1 forms1 h)

theorem suffixAffFold_pre (conf : IspellDict) (word : Word) (wrdlen flag : Nat) :
    ∀ (affs : List Affix) (forms forms1 : List Word),
      suffixAffFold conf word wrdlen flag affs forms = .ok forms1 →
      forms <+: forms1 := by
  intro affs
  induction affs with
  | nil =>
      intro forms forms1 h
      unfold suffixAffFold at h
      cases h
      exact List.prefix_rfl
  | cons a rest ih =>
      intro forms forms1 h
      unfold suffixAffFold at h
      split at h
      · exact ih forms forms1 h
      · split at h
        · cases h
        · rename_i newword hca x0 b hfw
          split at h
          · cases h
          · rename_i x1 f2 hpw
            refine List.IsPrefix.trans ?_ (ih f2 forms1 h)
            refine List.IsPrefix.trans ?_ (prefixWalk_pre conf newword newword.length flag
              (some (wrdlen - a.repl.length)) (some a) _ _ f2 hpw)
            cases b
            · exact List.prefix_rfl
            · exact addToResult_pre forms newword

theorem suffixWalk_pre (conf : IspellDict) (word : Word) (wrdlen flag : Nat) :
    ∀ (path : List ANEntry) (forms forms1 : List Word),
      suffixWalk conf word wrdlen flag path forms = .ok forms1 →
      forms <+: forms1 := by
  intro path
  induction path with
  | nil =>
      intro forms forms1 h
      unfold suffixWalk at h
      cases h
      exact List.prefix_rfl
  | cons e rest ih =>
      intro forms forms1 h
      unfold suffixWalk at h
      cases hf : suffixAffFold conf word wrdlen flag e.affs forms with
      | error err => rw [hf] at h; cases h
      | ok f1 =>
          rw [hf] at h
          exact (suffixAffFold_pre conf word wrdlen flag e.affs forms f1 hf).trans
            (ih f1 forms1 h)

theorem normalizeSubWord_found (conf : IspellDict) (w : Word) (d : SPEntry)
    (res : List Word) (h1 : leafEntry conf w = some d) (h2 : d.isword = true)
    (h3 : d.compoundflag &&& FF_COMPOUNDONLY = 0) (h4 : w.length ≤ MAXNORMLEN)
    (h5 : normalizeSubWord conf w 0 = .ok res) :
    [w] <+: res := by
  have hfw : findWord conf w [] 0 = .ok true :=
    findWordGo_found conf w conf.Dictionary d h1 h2 h3
  unfold normalizeSubWord at h5
  rw [if_neg (by omega)] at h5
  split at h5
  · cases h5
  · rename_i x0 b hfb
    rw [hfw] at hfb
    cases hfb
    split at h5
    · cases h5
    · rename_i x1 f1 hpw
      split at h5
      · cases h5
      · rename_i x2 f2 hsw
        cases h5
        exact (prefixWalk_pre conf w w.length 0 none none _ _ f1 hpw).trans
          (suffixWalk_pre conf w w.length 0 _ f1 res hsw)

theorem addNormLoop_pre :
    ∀ (ws : List Word) (l : List TSLexeme) (n : Nat), l <+: (addNormLoop ws l n).1 := by
  intro ws
  induction ws with
  | nil => intro l n; exact List.prefix_rfl
  | cons w rest ih =>
      intro l n
      unfold addNormLoop
      split
      · refine List.IsPrefix.trans ?_ (ih _ _)
        unfold addNorm
        split
        · exact ⟨[⟨w, 0, n⟩], rfl⟩
        · exact List.prefix_rfl
      · exact List.prefix_rfl

/-- C5 counterexample: presence in the source dictionary with no affix
rules applied does not guarantee the word comes back as a root.  The
257-byte word of dictionary { w257 } normalizes to nothing (oversize
words are skipped), and ab of dictionary { ab, ab/z, ab/z } with z
declared only-in-compound normalizes to nothing: the duplicated flagged
homonym reinstates FF_COMPOUNDONLY on the shared leaf after the merge
step had cleared it. -/
theorem C5_counterexample :
    (dispell_build [] dict257 = .ok conf257 ∧ ⟨w257, []⟩ ∈ dict257 ∧
     NINormalizeWord conf257 w257 = .ok []) ∧
    (dispell_build linesHom dictHom = .ok confHom ∧ ⟨abW, []⟩ ∈ dictHom ∧
     NINormalizeWord confHom abW = .ok []) :=
  ⟨⟨dispell257_eq, by decide, by decide⟩, ⟨dispellHom_eq, by decide, by decide⟩⟩

/-- C5: a word is returned as its own root provided its trie descent
ends at an entry marked as a word whose compound bitmask lacks
FF_COMPOUNDONLY and the word is at most 256 bytes: then a successful
NormalizeSubWord lists the word first, and with compound usage off a
successful NINormalizeWord contains it as variant 1.  (Presence in the
source dictionary alone does not suffice, see C5_counterexample.) -/
theorem C5_amended :
    (∀ (conf : IspellDict) (w : Word) (d : SPEntry) (res : List Word),
        leafEntry conf w = some d → d.isword = true →
        d.compoundflag &&& FF_COMPOUNDONLY = 0 → w.length ≤ MAXNORMLEN →
        normalizeSubWord conf w 0 = .ok res →
        res.headD [] = w ∧ w ∈ res) ∧
    (∀ (conf : IspellDict) (w : Word) (d : SPEntry) (lexs : List TSLexeme),
        leafEntry conf w = some d → d.isword = true →
        d.compoundflag &&& FF_COMPOUNDONLY = 0 → w.length ≤ MAXNORMLEN →
        conf.usecompound = false → NINormalizeWord conf w = .ok lexs →
        (⟨w, 0, 1⟩ : TSLexeme) ∈ lexs) := by
  constructor
  · intro conf w d res h1 h2 h3 h4 h5
    obtain ⟨t, ht⟩ := normalizeSubWord_found conf w d res h1 h2 h3 h4 h5
    subst ht
    exact ⟨rfl, by simp⟩
  · intro conf w d lexs h1 h2 h3 h4 h5 h6
    rw [NINormalizeWord_eq] at h6
    split at h6
    · cases h6
    · rename_i res hres
      rw [h5] at h6
      split at h6
      · rename_i hcond
        exact absurd hcond Bool.false_ne_true
      · cases h6
        obtain ⟨t, ht⟩ := normalizeSubWord_found conf w d res h1 h2 h3 h4 hres
        subst ht
        obtain ⟨t2, ht2⟩ := addNormLoop_pre t [⟨w, 0, 1⟩] 2
        show (⟨w, 0, 1⟩ : TSLexeme) ∈ (addNormLoop t [⟨w, 0, 1⟩] 2).1
        rw [← ht2]
        simp

theorem C5_amended_witness :
    ([abW].headD [] = abW ∧ abW ∈ [abW]) ∧
    (⟨abW, 0, 1⟩ : TSLexeme) ∈ [(⟨abW, 0, 1⟩ : TSLexeme)] :=
  ⟨C5_amended.1 confAB abW (.mk 98 true 0 0 none) [abW] rfl rfl (by decide) (by decide)
    (by decide),
   C5_amended.2 confAB abW (.mk 98 true 0 0 none) [⟨abW, 0, 1⟩] rfl rfl (by decide)
    (by decide) rfl (by decide)⟩

end Spell
